import Mathlib

/-!
# ordishs/sharded: a sharded key/value map

A shallow embedding of `sharedMap.go` (package `sharded`).

* Go values of type `interface{}` (both `KT` and `VT`) are the inductive `Iface`.
* A run-time panic is an `Except.error`; every operation that indexes a Go map or the
  shard slice returns `Except Panic _`.
* The locks are not modelled: every operation below is one uninterrupted call, which is
  what holding the shard lock for the duration of the call gives in the program.
* A channel handed out by `Iter` is the list of tuples sent on it before it is closed.
* Go's `int` is 64 bits wide (`intBits`); `TestShardWithObjects` only passes at that width.
-/

namespace Sharded

/-! ## Go values -/

/-- The float64 values on which `==` and identity part ways, or which `encoding/json`
rejects: the two zeros, the two infinities and NaN. Other float64 values are not carried. -/
inductive F64 where
  | zero (neg : Bool)
  | inf (neg : Bool)
  | nan
  deriving DecidableEq, Repr

/-- A Go value boxed in an `interface{}`: the nil interface, a `bool`, an `int`, a `float64`,
a `string` (valid UTF-8) or a non-nil `[]interface{}`. -/
inductive Iface where
  | null
  | bool (b : Bool)
  | int (i : Int)
  | float64 (f : F64)
  | str (s : String)
  | slice (xs : List Iface)
  deriving Repr

/-- KT is an alias for interface{} -/
abbrev KT := Iface

/-- VT is an alias for interface{} -/
abbrev VT := Iface

/-- The run-time panics the program can raise. -/
inductive Panic where
  /-- Hash of unhashable type: a map indexed by a key whose dynamic type is a slice. -/
  | unhashableKey
  /-- Index out of range on `m.shards[...]`. -/
  | indexOutOfRange
  /-- Integer divide by zero in `%`. -/
  | divideByZero
  /-- The length given to `make([]*shard, n)` is out of range. -/
  | makeSliceLen
  deriving DecidableEq, Repr

/-- Go's `==` on float64. -/
def F64.eq : F64 → F64 → Bool
  | .zero _, .zero _ => true
  | .inf a, .inf b => a == b
  | _, _ => false

/-- Go's `==` on two interface values whose dynamic types are comparable: equal dynamic
types and equal values. (On two slices `==` panics; a map never gets that far, see
`hashable`.) -/
def goEq : KT → KT → Bool
  | .null, .null => true
  | .bool a, .bool b => a == b
  | .int a, .int b => a == b
  | .float64 a, .float64 b => F64.eq a b
  | .str a, .str b => a == b
  | _, _ => false

/-- Whether the Go runtime can hash the value as a map key: a slice cannot. -/
def hashable : KT → Bool
  | .slice _ => false
  | _ => true

/-! ## encoding/json, as far as `json.Marshal(key)` goes -/

/-- Decimal digits of `n`, as ASCII bytes; `fuel` bounds the number of digits. -/
def decDigits : Nat → Nat → List Nat
  | 0, _ => []
  | fuel + 1, n => if n < 10 then [48 + n] else decDigits fuel (n / 10) ++ [48 + n % 10]

/-- The result of strconv.AppendInt in base 10. -/
def formatInt (i : Int) : List Nat :=
  if i < 0 then 45 :: decDigits (i.natAbs + 1) i.natAbs else decDigits (i.natAbs + 1) i.natAbs

/-- One lower-case hexadecimal digit. -/
def hexDigit (d : Nat) : Nat := if d < 10 then 48 + d else 87 + d

/-- UTF-8 bytes of a code point. -/
def utf8Bytes (c : Nat) : List Nat :=
  if c < 0x80 then [c]
  else if c < 0x800 then [0xC0 + c / 64, 0x80 + c % 64]
  else if c < 0x10000 then [0xE0 + c / 4096, 0x80 + c / 64 % 64, 0x80 + c % 64]
  else [0xF0 + c / 262144, 0x80 + c / 4096 % 64, 0x80 + c / 64 % 64, 0x80 + c % 64]

/-- How `encoding/json` writes one character of a string (HTML escaping on, as in
`json.Marshal`; the short escapes are those of Go 1.22). -/
def escapeChar (c : Nat) : List Nat :=
  if c = 0x22 ∨ c = 0x5C then [0x5C, c]
  else if c = 0x08 then [0x5C, 0x62]
  else if c = 0x0C then [0x5C, 0x66]
  else if c = 0x0A then [0x5C, 0x6E]
  else if c = 0x0D then [0x5C, 0x72]
  else if c = 0x09 then [0x5C, 0x74]
  else if c < 0x20 ∨ c = 0x3C ∨ c = 0x3E ∨ c = 0x26 then
    [0x5C, 0x75, 0x30, 0x30, hexDigit (c / 16), hexDigit (c % 16)]
  else if c = 0x2028 ∨ c = 0x2029 then [0x5C, 0x75, 0x32, 0x30, 0x32, hexDigit (c % 16)]
  else utf8Bytes c

/-- A JSON string literal. -/
def marshalString (s : String) : List Nat :=
  [0x22] ++ (s.data.map fun c => escapeChar c.toNat).flatten ++ [0x22]

/-- A float64 in JSON; infinities and NaN are an UnsupportedValueError. -/
def marshalFloat : F64 → Option (List Nat)
  | .zero false => some [0x30]
  | .zero true => some [0x2D, 0x30]
  | .inf _ => none
  | .nan => none

mutual
/-- The bytes `json.Marshal` returns, or `none` when it returns an error. -/
def jsonMarshal : KT → Option (List Nat)
  | .null => some [0x6E, 0x75, 0x6C, 0x6C]
  | .bool true => some [0x74, 0x72, 0x75, 0x65]
  | .bool false => some [0x66, 0x61, 0x6C, 0x73, 0x65]
  | .int i => some (formatInt i)
  | .float64 f => marshalFloat f
  | .str s => some (marshalString s)
  | .slice xs => (marshalElems xs).map fun b => [0x5B] ++ b ++ [0x5D]
/-- The elements of an array, separated by commas. -/
def marshalElems : List KT → Option (List Nat)
  | [] => some []
  | [x] => jsonMarshal x
  | x :: y :: r =>
    match jsonMarshal x, marshalElems (y :: r) with
    | some a, some b => some (a ++ [0x2C] ++ b)
    | _, _ => none
end

/-! ## hash/fnv -/

/-- One step of `sum32.Write`: multiply by the 32-bit prime, then xor the byte `b`. -/
def fnvStep (h : Nat) (b : Nat) : Nat := ((h * 16777619) % 2 ^ 32) ^^^ (b % 256)

/-- The value `Sum32` returns after `fnv.New32()` and one `Write(j)`. -/
def fnv32 (j : List Nat) : Nat := j.foldl fnvStep 2166136261

/-! ## Machine integers -/

/-- Width of Go's `int`. -/
def intBits : Nat := 64

/-- Two's-complement wrap of an integer to `w` bits, signed. -/
def wrapSigned (w : Nat) (x : Int) : Int := (x + 2 ^ (w - 1)) % 2 ^ w - 2 ^ (w - 1)

/-- The conversion `int(x)` of an unsigned 32-bit value. -/
def toInt (x : Nat) : Int := wrapSigned intBits x

/-! ## The program -/

/-- A shard: the entries of its Go map `items`, in no particular order. -/
structure shard where
  items : List (KT × VT)
  deriving Repr

/-- Map is a container of shards. -/
structure Map where
  shards : List shard
  deriving Repr

/-- New returns a ShardedMap with shardCount shards in it. `make` panics on a negative
length; the loop then stores a fresh empty shard at every index. -/
def New (shardCount : Int) : Except Panic Map :=
  if shardCount < 0 then .error .makeSliceLen
  else .ok ⟨List.replicate shardCount.toNat ⟨[]⟩⟩

/-- The function getShardNumber: `j, _ := json.Marshal(key)` leaves `j` nil when Marshal
fails; `%` is Go's truncated remainder and panics on a zero divisor. -/
def getShardNumber (key : KT) (numberOfShards : Int) : Except Panic Int :=
  if numberOfShards = 1 then .ok 0
  else
    let j := (jsonMarshal key).getD []
    if numberOfShards = 0 then .error .divideByZero
    else .ok (Int.tmod (toInt (fnv32 j)) numberOfShards)

/-! ### The Go map of a shard

The runtime hashes the key first (a panic for a slice) and then compares it with `==`
against the stored keys. -/

/-- The statement `val, ok := items[key]`; a missing key gives the nil interface and false. -/
def mapaccess (items : List (KT × VT)) (key : KT) : Except Panic (VT × Bool) :=
  if hashable key then
    match items.find? (fun e => goEq e.1 key) with
    | some e => .ok (e.2, true)
    | none => .ok (.null, false)
  else .error .unhashableKey

/-- The entries after `items[key] = val`: the entry whose key is `==` to `key` is
overwritten, key included (interface keys are rewritten on assignment); without one a new
entry is added. -/
def assignEntry (key : KT) (val : VT) : List (KT × VT) → List (KT × VT)
  | [] => [(key, val)]
  | e :: rest => if goEq e.1 key then (key, val) :: rest else e :: assignEntry key val rest

/-- The statement `items[key] = val`. -/
def mapassign (items : List (KT × VT)) (key : KT) (val : VT) : Except Panic (List (KT × VT)) :=
  if hashable key then .ok (assignEntry key val items) else .error .unhashableKey

/-- The statement `delete(items, key)`. -/
def mapdelete (items : List (KT × VT)) (key : KT) : Except Panic (List (KT × VT)) :=
  if hashable key then .ok (items.eraseP fun e => goEq e.1 key) else .error .unhashableKey

/-- The method getShard: the index into `m.shards` stands for the pointer it returns, paired
with the shard found there. -/
def Map.getShard (m : Map) (key : KT) : Except Panic (Nat × shard) :=
  match getShardNumber key m.shards.length with
  | .error e => .error e
  | .ok i =>
    if i < 0 then .error .indexOutOfRange
    else
      match m.shards[i.toNat]? with
      | some s => .ok (i.toNat, s)
      | none => .error .indexOutOfRange

/-- Set sets the given value under the specified key. -/
def Map.Set (m : Map) (key : KT) (value : VT) : Except Panic Map :=
  match m.getShard key with
  | .error e => .error e
  | .ok (i, s) =>
    match mapassign s.items key value with
    | .error e => .error e
    | .ok items => .ok ⟨m.shards.set i ⟨items⟩⟩

/-- Get retrieves an element from map under given key. -/
def Map.Get (m : Map) (key : KT) : Except Panic (VT × Bool) :=
  match m.getShard key with
  | .error e => .error e
  | .ok (_, s) => mapaccess s.items key

/-- Count returns the number of elements within the map. -/
def Map.Count (m : Map) : Nat :=
  m.shards.foldl (fun count s => count + s.items.length) 0

/-- Has looks up an item under specified key -/
def Map.Has (m : Map) (key : KT) : Except Panic Bool :=
  match m.Get key with
  | .error e => .error e
  | .ok (_, ok) => .ok ok

/-- Remove removes an element from the map. -/
def Map.Remove (m : Map) (key : KT) : Except Panic Map :=
  match m.getShard key with
  | .error e => .error e
  | .ok (i, s) =>
    match mapdelete s.items key with
    | .error e => .error e
    | .ok items => .ok ⟨m.shards.set i ⟨items⟩⟩

/-- IsEmpty checks if map is empty. -/
def Map.IsEmpty (m : Map) : Bool := m.Count == 0

/-- Tuple is used by the Iter & IterBuffered functions to wrap two variables together over a
channel. -/
structure Tuple where
  Key : KT
  Val : VT
  deriving Repr

/-- The loop `for _, shard := range m.shards` of Iter and IterBuffered, from index `i` on:
for each shard, one Tuple per entry, in the order `range shard.items` visits them.
`rangeOrder i items` is that order for the shard at index `i` during this call (Go leaves the
order of a range over a map open). -/
def iterFrom (rangeOrder : Nat → List (KT × VT) → List (KT × VT)) :
    Nat → List shard → List Tuple
  | _, [] => []
  | i, s :: rest =>
    ((rangeOrder i s.items).map fun e => Tuple.mk e.1 e.2) ++ iterFrom rangeOrder (i + 1) rest

/-- Iter returns an iterator which could be used in a for range loop: the tuples sent on the
channel before it is closed. -/
def Map.Iter (rangeOrder : Nat → List (KT × VT) → List (KT × VT)) (m : Map) : List Tuple :=
  iterFrom rangeOrder 0 m.shards

/-- IterBuffered returns a buffered iterator: the capacity of the channel, `m.Count()` at
the time of the call, and the tuples sent on it before it is closed. -/
def Map.IterBuffered (rangeOrder : Nat → List (KT × VT) → List (KT × VT)) (m : Map) :
    Nat × List Tuple :=
  (m.Count, iterFrom rangeOrder 0 m.shards)

/-- Update calls `fn` with the key's old value (or nil) and assign the returned value to the
key. -/
def Map.Update (m : Map) (key : KT) (fn : VT → VT) : Except Panic Map :=
  match m.getShard key with
  | .error e => .error e
  | .ok (i, s) =>
    match mapaccess s.items key with
    | .error e => .error e
    | .ok (old, _) =>
      match mapassign s.items key (fn old) with
      | .error e => .error e
      | .ok items => .ok ⟨m.shards.set i ⟨items⟩⟩

/-- The maps a program can hold after `New(n)`: the one New returns, and whatever a call of
Set, Remove or Update that returns leaves behind. -/
inductive Reachable (n : Int) : Map → Prop where
  | new {m : Map} : New n = .ok m → Reachable n m
  | set {m m1 : Map} (k : KT) (v : VT) : Reachable n m → m.Set k v = .ok m1 → Reachable n m1
  | remove {m m1 : Map} (k : KT) : Reachable n m → m.Remove k = .ok m1 → Reachable n m1
  | update {m m1 : Map} (k : KT) (fn : VT → VT) :
      Reachable n m → m.Update k fn = .ok m1 → Reachable n m1

/-! ## Invariants of the maps a program can hold -/

/-- No two entries of a shard's Go map have keys that are `==`. -/
def distinctKeys (items : List (KT × VT)) : Prop :=
  items.Pairwise fun a b => goEq a.1 b.1 = false

/-- What holds of the shard at index `i` of a map of `n` shards: its keys are pairwise
different under `==` and each of them has shard number `i`. -/
structure shardInv (n : Int) (i : Nat) (s : shard) : Prop where
  distinct : distinctKeys s.items
  routed : ∀ e ∈ s.items, getShardNumber e.1 n = .ok (i : Int)

/-- The invariant of a map of `n` shards. -/
def Map.Inv (n : Int) (m : Map) : Prop :=
  (m.shards.length : Int) = n ∧ ∀ i s, m.shards[i]? = some s → shardInv n i s

/-- One call of Set for each pair of the list, in order; the first panic ends the run. -/
def setAll (m : Map) : List (KT × VT) → Except Panic Map
  | [] => .ok m
  | e :: rest =>
    match m.Set e.1 e.2 with
    | .error err => .error err
    | .ok m1 => setAll m1 rest

/-- The map of TestSetCountAndGet, TestRemove and TestReset: `New(4)` followed by
Set("name", "simon"). -/
def nameTestMap : Map := ⟨[⟨[]⟩, ⟨[]⟩, ⟨[(.str "name", .str "simon")]⟩, ⟨[]⟩]⟩

/-- The map of TestIter and TestResetIter: `New(4)` followed by Set of name1 .. name4. -/
def iterTestMap : Map :=
  ⟨[⟨[(.str "name2", .str "simon2")]⟩, ⟨[(.str "name1", .str "simon1")]⟩,
    ⟨[(.str "name4", .str "simon4")]⟩, ⟨[(.str "name3", .str "simon3")]⟩]⟩

/-! ## FNV-1 as the specification words it -/

/-- FNV-1 from the running value `h`: for each byte, multiply by 16777619 modulo 2^32, then
XOR the byte. -/
def fnv1From (h : Nat) : List Nat → Nat
  | [] => h
  | b :: rest => fnv1From (((h * 16777619) % 2 ^ 32) ^^^ b) rest

/-- The 32-bit FNV-1 hash: start at the offset basis 2166136261. -/
def fnv1 (bytes : List Nat) : Nat := fnv1From 2166136261 bytes

/-- Every element of the list is a byte. -/
def allBytes (l : List Nat) : Prop := ∀ b ∈ l, b < 256

/-- What a producer gets into a channel of capacity `cap` while nobody receives: a send on a
buffered channel blocks only when the buffer is full, so the first `cap` values are placed
and the producer waits at the next one. -/
def placedWithoutReceiver (cap : Nat) (ts : List Tuple) : List Tuple := ts.take cap

/-- One call that changes a Map. -/
inductive Op where
  | set (key : KT) (value : VT)
  | remove (key : KT)
  | update (key : KT) (fn : VT → VT)

/-- The key a call is made with. -/
def Op.key : Op → KT
  | .set key _ => key
  | .remove key => key
  | .update key _ => key

/-- The call made on a map. -/
def Map.apply (m : Map) : Op → Except Panic Map
  | .set key value => m.Set key value
  | .remove key => m.Remove key
  | .update key fn => m.Update key fn

/-- The calls of the list made one after the other; the first panic ends the run. -/
def runOps (m : Map) : List Op → Except Panic Map
  | [] => .ok m
  | op :: rest =>
    match m.apply op with
    | .error e => .error e
    | .ok m1 => runOps m1 rest

/-- A program that calls `New(n)` and then makes the calls of the list. -/
def newAndRun (n : Int) (ops : List Op) : Except Panic Map :=
  match New n with
  | .error e => .error e
  | .ok m => runOps m ops

/-- Among `n` shards, `k` has the shard number of every key of the list that it is `==` to. -/
def routedAlike (n : Int) (keys : List KT) (k : KT) : Prop :=
  ∀ a ∈ keys, goEq a k = true → getShardNumber a n = getShardNumber k n

/-- A map of `n` shards and a map of one shard that show the same Count and, on every key
routed like the keys of the list, the same Get. -/
structure SameView (n : Int) (keys : List KT) (mn m1 : Map) : Prop where
  reachN : Reachable n mn
  reach1 : Reachable 1 m1
  count : mn.Count = m1.Count
  get : ∀ k, routedAlike n keys k → mn.Get k = m1.Get k

/-- One call of Update with `fn` for each tuple of the list, in order, under the tuple's
key; the first panic ends the run. -/
def updateAll (m : Map) (fn : VT → VT) : List Tuple → Except Panic Map
  | [] => .ok m
  | t :: rest =>
    match m.Update t.Key fn with
    | .error e => .error e
    | .ok m1 => updateAll m1 fn rest

/-- A write under `k1` reaches what Get of `k` reads: the two keys are `==` and have the same
shard number among `n` shards. -/
def touches (n : Int) (k1 k : KT) : Prop :=
  goEq k1 k = true ∧ getShardNumber k1 n = getShardNumber k n

/-- The function TestResetIter updates with. -/
def resetFn : VT → VT
  | .str "simon1" => .str "bob1"
  | _ => .str "george"

/-! ## Go's `==` is symmetric and transitive (NaN keeps it from being reflexive) -/

theorem F64.eq_symm (a b : F64) : F64.eq a b = F64.eq b a := by
  cases a <;> cases b <;> simp [F64.eq, eq_comm]

theorem F64.eq_trans {a b c : F64} (h1 : F64.eq a b = true) (h2 : F64.eq b c = true) :
    F64.eq a c = true := by
  cases a <;> cases b <;> cases c <;> simp_all [F64.eq]

theorem goEq_symm (a b : KT) : goEq a b = goEq b a := by
  cases a <;> cases b <;> simp [goEq, eq_comm, F64.eq_symm]

theorem goEq_trans {a b c : KT} (h1 : goEq a b = true) (h2 : goEq b c = true) :
    goEq a c = true := by
  cases a <;> cases b <;> cases c <;> simp_all [goEq]
  exact F64.eq_trans h1 h2

theorem hashable_of_goEq {a b : KT} (h : goEq a b = true) : hashable b = true := by
  cases a <;> cases b <;> simp_all [goEq, hashable]

/-- Two keys that are `==` agree on every third key. -/
theorem goEq_congr_left {a b : KT} (h : goEq a b = true) (c : KT) : goEq a c = goEq b c := by
  cases hb : goEq b c
  · cases ha : goEq a c
    · rfl
    · have := goEq_trans ((goEq_symm b a).trans h) ha
      simp [hb] at this
  · exact goEq_trans h hb

/-! ## The hash and the shard number -/

theorem fnvStep_lt (h b : Nat) : fnvStep h b < 2 ^ 32 := by
  unfold fnvStep
  apply Nat.xor_lt_two_pow
  · exact Nat.mod_lt _ (by norm_num)
  · have : b % 256 < 256 := Nat.mod_lt _ (by norm_num)
    omega

theorem fnv32_lt (j : List Nat) : fnv32 j < 2 ^ 32 := by
  unfold fnv32
  have : ∀ (l : List Nat) (h : Nat), h < 2 ^ 32 → l.foldl fnvStep h < 2 ^ 32 := by
    intro l
    induction l with
    | nil => intro h hh; simpa using hh
    | cons b l ih => intro h _; exact ih _ (fnvStep_lt h b)
  exact this j _ (by norm_num)

theorem toInt_of_lt {x : Nat} (h : x < 2 ^ 32) : toInt x = (x : Int) := by
  unfold toInt wrapSigned intBits
  norm_num at h ⊢
  omega

theorem getShardNumber_one (key : KT) : getShardNumber key 1 = .ok 0 := by
  simp [getShardNumber]

theorem getShardNumber_of_one_lt (key : KT) {n : Int} (hn : 1 < n) :
    getShardNumber key n = .ok (((fnv32 ((jsonMarshal key).getD []) : Nat) : Int) % n) := by
  have h1 : n ≠ 1 := by omega
  have h0 : n ≠ 0 := by omega
  simp only [getShardNumber, h1, h0, if_false]
  rw [toInt_of_lt (fnv32_lt _), Int.tmod_eq_emod (by omega) (by omega)]

/-- With at least one shard the shard number is a natural number below the shard count. -/
theorem getShardNumber_nat (key : KT) {n : Int} (hn : 1 ≤ n) :
    ∃ i : Nat, getShardNumber key n = .ok (i : Int) ∧ (i : Int) < n := by
  rcases eq_or_lt_of_le hn with h | h
  · subst h
    exact ⟨0, by simp [getShardNumber_one], by norm_num⟩
  · refine ⟨(((fnv32 ((jsonMarshal key).getD []) : Nat) : Int) % n).toNat, ?_, ?_⟩
    · rw [getShardNumber_of_one_lt key h, Int.toNat_of_nonneg (Int.emod_nonneg _ (by omega))]
    · rw [Int.toNat_of_nonneg (Int.emod_nonneg _ (by omega))]
      exact Int.emod_lt_of_pos _ (by omega)

/-- What a successful getShard says: the index is the shard number and the shard sits there. -/
theorem getShard_ok {m : Map} {key : KT} {i : Nat} {s : shard}
    (h : m.getShard key = .ok (i, s)) :
    getShardNumber key m.shards.length = .ok (i : Int) ∧ m.shards[i]? = some s := by
  unfold Map.getShard at h
  split at h
  · simp at h
  · rename_i j hj
    split at h
    · simp at h
    · rename_i hneg
      split at h
      · rename_i s1 hs
        simp only [Except.ok.injEq, Prod.mk.injEq] at h
        obtain ⟨rfl, rfl⟩ := h
        refine ⟨?_, hs⟩
        rw [hj, Int.toNat_of_nonneg (by omega)]
      · simp at h

/-- The converse of `getShard_ok`. -/
theorem getShard_of_number {m : Map} {key : KT} {i : Nat} {s : shard}
    (h1 : getShardNumber key m.shards.length = .ok (i : Int)) (h2 : m.shards[i]? = some s) :
    m.getShard key = .ok (i, s) := by
  unfold Map.getShard
  simp [h1, h2]

/-- With at least one shard getShard finds a shard. -/
theorem getShard_total (m : Map) (key : KT) (h : 1 ≤ m.shards.length) :
    ∃ i s, m.getShard key = .ok (i, s) := by
  have hpos : (1 : Int) ≤ (m.shards.length : Int) := by exact_mod_cast h
  obtain ⟨i, hi, hlt⟩ := getShardNumber_nat key hpos
  have hlt2 : i < m.shards.length := by exact_mod_cast hlt
  exact ⟨i, m.shards[i], getShard_of_number hi (by simp [hlt2])⟩

/-- Storing a shard at an index leaves every key on its shard. -/
theorem getShard_set {m : Map} {key : KT} {i j : Nat} {s t : shard}
    (h : m.getShard key = .ok (i, s)) (hj : j < m.shards.length) :
    (Map.mk (m.shards.set j t)).getShard key = .ok (i, if j = i then t else s) := by
  obtain ⟨h1, h2⟩ := getShard_ok h
  apply getShard_of_number
  · simpa using h1
  · simp only [List.getElem?_set, hj, if_true]
    split
    · rfl
    · exact h2

/-! ## The Go map of one shard -/

theorem find_assignEntry_self {k : KT} (hk : goEq k k = true) (v : VT) (l : List (KT × VT)) :
    (assignEntry k v l).find? (fun e => goEq e.1 k) = some (k, v) := by
  induction l with
  | nil => simp [assignEntry, hk]
  | cons e l ih =>
    unfold assignEntry
    by_cases h : goEq e.1 k = true
    · simp [h, hk]
    · simp [h, ih]

theorem find_assignEntry_of_ne {k k1 : KT} (h : goEq k1 k = false) (v : VT)
    (l : List (KT × VT)) :
    (assignEntry k1 v l).find? (fun e => goEq e.1 k) = l.find? (fun e => goEq e.1 k) := by
  induction l with
  | nil => simp [assignEntry, h]
  | cons e l ih =>
    unfold assignEntry
    by_cases h1 : goEq e.1 k1 = true
    · have h2 : goEq e.1 k = false := by rw [goEq_congr_left h1 k]; exact h
      simp [h1, h2, h]
    · simp only [Bool.not_eq_true] at h1
      simp [h1, List.find?_cons, ih]

theorem find_eraseP_of_ne {k k1 : KT} (h : goEq k1 k = false) (l : List (KT × VT)) :
    (l.eraseP fun e => goEq e.1 k1).find? (fun e => goEq e.1 k) =
      l.find? (fun e => goEq e.1 k) := by
  induction l with
  | nil => simp
  | cons e l ih =>
    by_cases h1 : goEq e.1 k1 = true
    · have h2 : goEq e.1 k = false := by rw [goEq_congr_left h1 k]; exact h
      simp [List.eraseP_cons, h1, h2]
    · simp [List.eraseP_cons, h1, List.find?_cons, ih]

theorem find_eraseP_self {l : List (KT × VT)} (hd : distinctKeys l) (k : KT) :
    (l.eraseP fun e => goEq e.1 k).find? (fun e => goEq e.1 k) = none := by
  induction l with
  | nil => simp
  | cons e l ih =>
    have hd1 := List.pairwise_cons.1 hd
    by_cases h1 : goEq e.1 k = true
    · simp only [List.eraseP_cons, h1, if_true, cond_true]
      rw [List.find?_eq_none]
      intro x hx hxk
      have := hd1.1 x hx
      rw [goEq_congr_left h1 x.1, goEq_symm] at this
      simp [this] at hxk
    · simp only [List.eraseP_cons, h1]
      simpa [List.find?_cons, h1] using ih hd1.2

theorem mem_assignEntry {k : KT} {v : VT} {l : List (KT × VT)} {e : KT × VT}
    (h : e ∈ assignEntry k v l) : e = (k, v) ∨ e ∈ l := by
  induction l with
  | nil => simpa [assignEntry] using h
  | cons a l ih =>
    unfold assignEntry at h
    split at h
    · rcases List.mem_cons.1 h with h | h
      · exact Or.inl h
      · exact Or.inr (List.mem_cons_of_mem _ h)
    · rcases List.mem_cons.1 h with h | h
      · exact Or.inr (h ▸ List.mem_cons_self _ _)
      · rcases ih h with h | h
        · exact Or.inl h
        · exact Or.inr (List.mem_cons_of_mem _ h)

theorem distinctKeys_assignEntry {l : List (KT × VT)} (hd : distinctKeys l) (k : KT) (v : VT) :
    distinctKeys (assignEntry k v l) := by
  induction l with
  | nil => simp [assignEntry, distinctKeys]
  | cons e l ih =>
    have hd1 := List.pairwise_cons.1 hd
    unfold assignEntry
    by_cases h1 : goEq e.1 k = true
    · simp only [h1, if_true]
      refine List.pairwise_cons.2 ⟨fun x hx => ?_, hd1.2⟩
      rw [← goEq_congr_left h1 x.1]
      exact hd1.1 x hx
    · simp only [h1, if_false]
      refine List.pairwise_cons.2 ⟨fun x hx => ?_, ih hd1.2⟩
      rcases mem_assignEntry hx with hx | hx
      · subst hx
        simpa using h1
      · exact hd1.1 x hx

theorem distinctKeys_eraseP {l : List (KT × VT)} (hd : distinctKeys l) (p : KT × VT → Bool) :
    distinctKeys (l.eraseP p) :=
  List.Pairwise.sublist (List.eraseP_sublist l) hd

theorem length_assignEntry_of_found {k : KT} {l : List (KT × VT)} {e : KT × VT}
    (h : l.find? (fun e => goEq e.1 k) = some e) (v : VT) :
    (assignEntry k v l).length = l.length := by
  induction l with
  | nil => simp at h
  | cons a l ih =>
    unfold assignEntry
    by_cases h1 : goEq a.1 k = true
    · simp [h1]
    · simp only [Bool.not_eq_true] at h1
      simp [h1, ih (by simpa [List.find?_cons, h1] using h)]

theorem length_assignEntry_of_missing {k : KT} {l : List (KT × VT)}
    (h : l.find? (fun e => goEq e.1 k) = none) (v : VT) :
    (assignEntry k v l).length = l.length + 1 := by
  induction l with
  | nil => simp [assignEntry]
  | cons a l ih =>
    unfold assignEntry
    have h1 : goEq a.1 k = false := by
      cases h1 : goEq a.1 k
      · rfl
      · simp [List.find?_cons, h1] at h
    simp [h1, ih (by simpa [List.find?_cons, h1] using h)]

theorem length_eraseP_of_found {k : KT} {l : List (KT × VT)} {e : KT × VT}
    (h : l.find? (fun e => goEq e.1 k) = some e) :
    (l.eraseP fun e => goEq e.1 k).length + 1 = l.length := by
  have hm := List.mem_of_find?_eq_some h
  have hp := List.find?_some h
  rw [List.length_eraseP_of_mem hm hp]
  have : 0 < l.length := List.length_pos_of_mem hm
  omega

theorem eraseP_of_missing {k : KT} {l : List (KT × VT)}
    (h : l.find? (fun e => goEq e.1 k) = none) :
    (l.eraseP fun e => goEq e.1 k) = l := by
  apply List.eraseP_of_forall_not
  intro a ha
  exact (List.find?_eq_none.1 h) a ha

/-! ## The operations, seen from the shard the key is routed to -/

theorem Get_eq {m : Map} {k : KT} {i : Nat} {s : shard} (h : m.getShard k = .ok (i, s)) :
    m.Get k = mapaccess s.items k := by
  simp [Map.Get, h]

theorem Has_eq {m : Map} {k : KT} {i : Nat} {s : shard} (h : m.getShard k = .ok (i, s))
    (hk : hashable k = true) :
    m.Has k = .ok (s.items.find? fun e => goEq e.1 k).isSome := by
  simp only [Map.Has, Get_eq h, mapaccess, hk, if_true]
  cases s.items.find? fun e => goEq e.1 k <;> rfl

theorem Set_eq {m : Map} {k : KT} {i : Nat} {s : shard} (h : m.getShard k = .ok (i, s))
    (hk : hashable k = true) (v : VT) :
    m.Set k v = .ok ⟨m.shards.set i ⟨assignEntry k v s.items⟩⟩ := by
  simp [Map.Set, h, mapassign, hk]

theorem Remove_eq {m : Map} {k : KT} {i : Nat} {s : shard} (h : m.getShard k = .ok (i, s))
    (hk : hashable k = true) :
    m.Remove k = .ok ⟨m.shards.set i ⟨s.items.eraseP fun e => goEq e.1 k⟩⟩ := by
  simp [Map.Remove, h, mapdelete, hk]

/-- Update is Set of `fn` applied to the value Get reports. -/
theorem Update_eq_Set (m : Map) (k : KT) (fn : VT → VT) :
    m.Update k fn =
      match m.Get k with
      | .ok (old, _) => m.Set k (fn old)
      | .error e => .error e := by
  unfold Map.Update Map.Get Map.Set
  cases h : m.getShard k with
  | error e => rfl
  | ok p =>
    obtain ⟨i, s⟩ := p
    simp only
    cases h2 : mapaccess s.items k with
    | error e => rfl
    | ok q => rfl

/-- A call of Set that returns was made with a hashable key that getShard could place. -/
theorem Set_ok {m m1 : Map} {k : KT} {v : VT} (h : m.Set k v = .ok m1) :
    ∃ i s, m.getShard k = .ok (i, s) ∧ hashable k = true ∧
      m1 = ⟨m.shards.set i ⟨assignEntry k v s.items⟩⟩ := by
  unfold Map.Set at h
  cases hg : m.getShard k with
  | error e => simp [hg] at h
  | ok p =>
    obtain ⟨i, s⟩ := p
    cases hk : hashable k
    · simp [hg, mapassign, hk] at h
    · refine ⟨i, s, rfl, rfl, ?_⟩
      simp [hg, mapassign, hk] at h
      exact h.symm

theorem Remove_ok {m m1 : Map} {k : KT} (h : m.Remove k = .ok m1) :
    ∃ i s, m.getShard k = .ok (i, s) ∧ hashable k = true ∧
      m1 = ⟨m.shards.set i ⟨s.items.eraseP fun e => goEq e.1 k⟩⟩ := by
  unfold Map.Remove at h
  cases hg : m.getShard k with
  | error e => simp [hg] at h
  | ok p =>
    obtain ⟨i, s⟩ := p
    cases hk : hashable k
    · simp [hg, mapdelete, hk] at h
    · refine ⟨i, s, rfl, rfl, ?_⟩
      simp [hg, mapdelete, hk] at h
      exact h.symm

theorem Get_ok {m : Map} {k : KT} {r : VT × Bool} (h : m.Get k = .ok r) :
    ∃ i s, m.getShard k = .ok (i, s) ∧ hashable k = true := by
  unfold Map.Get at h
  cases hg : m.getShard k with
  | error e => simp [hg] at h
  | ok p =>
    obtain ⟨i, s⟩ := p
    cases hk : hashable k
    · simp [hg, mapaccess, hk] at h
    · exact ⟨i, s, rfl, rfl⟩

theorem Has_ok {m : Map} {k : KT} {b : Bool} (h : m.Has k = .ok b) :
    ∃ i s, m.getShard k = .ok (i, s) ∧ hashable k = true := by
  unfold Map.Has at h
  cases hg : m.Get k with
  | error e => simp [hg] at h
  | ok r => exact Get_ok hg

theorem Update_ok {m m1 : Map} {k : KT} {fn : VT → VT} (h : m.Update k fn = .ok m1) :
    ∃ old b, m.Get k = .ok (old, b) ∧ m.Set k (fn old) = .ok m1 := by
  rw [Update_eq_Set] at h
  cases hg : m.Get k with
  | error e => simp [hg] at h
  | ok r =>
    obtain ⟨old, b⟩ := r
    exact ⟨old, b, rfl, by simpa [hg] using h⟩

/-! ## Count -/

theorem foldl_count (l : List shard) (a : Nat) :
    l.foldl (fun count s => count + s.items.length) a =
      a + (l.map fun s => s.items.length).sum := by
  induction l generalizing a with
  | nil => simp
  | cons s l ih => simp [ih, Nat.add_assoc]

theorem Count_eq_sum (m : Map) : m.Count = (m.shards.map fun s => s.items.length).sum := by
  simp [Map.Count, foldl_count]

/-- Replacing the shard at an index moves Count by the difference of the two sizes. -/
theorem Count_set {m : Map} {i : Nat} {s : shard} (h : m.shards[i]? = some s) (t : shard) :
    (Map.mk (m.shards.set i t)).Count + s.items.length = m.Count + t.items.length := by
  simp only [Count_eq_sum]
  obtain ⟨l⟩ := m
  simp only at h ⊢
  induction l generalizing i with
  | nil => simp at h
  | cons a l ih =>
    cases i with
    | zero =>
      simp only [List.getElem?_cons_zero, Option.some.injEq] at h
      subst h
      simp only [List.set_cons_zero, List.map_cons, List.sum_cons]
      omega
    | succ i =>
      simp only [List.getElem?_cons_succ] at h
      have := ih h
      simp only [List.set_cons_succ, List.map_cons, List.sum_cons]
      omega

/-! ## The invariant holds of every reachable map -/

theorem Inv_New {n : Int} {m : Map} (h : New n = .ok m) : m.Inv n := by
  unfold New at h
  split at h
  · simp at h
  · rename_i hn
    simp only [Except.ok.injEq] at h
    subst h
    refine ⟨by simp; omega, ?_⟩
    intro i s hs
    simp only [List.getElem?_replicate] at hs
    split at hs
    · simp only [Option.some.injEq] at hs
      subst hs
      exact ⟨by simp [distinctKeys], by simp⟩
    · simp at hs

/-- Replacing the items of the shard a key is routed to by entries that are old ones or
carry that key keeps the invariant. -/
theorem Inv_set {n : Int} {m : Map} {k : KT} {i : Nat} {s : shard} {items : List (KT × VT)}
    (hinv : m.Inv n) (hg : m.getShard k = .ok (i, s)) (hd : distinctKeys items)
    (hm : ∀ e ∈ items, e ∈ s.items ∨ e.1 = k) :
    (Map.mk (m.shards.set i ⟨items⟩)).Inv n := by
  obtain ⟨hlen, hsh⟩ := hinv
  obtain ⟨hnum, hs⟩ := getShard_ok hg
  refine ⟨by simpa using hlen, ?_⟩
  intro j t ht
  simp only [List.getElem?_set] at ht
  split at ht
  · rename_i hij
    subst hij
    split at ht
    · simp only [Option.some.injEq] at ht
      subst ht
      refine ⟨hd, fun e he => ?_⟩
      rcases hm e he with h | h
      · exact (hsh i s hs).routed e h
      · rw [h, ← hlen]
        exact hnum
    · simp at ht
  · exact hsh j t ht

theorem Reachable.inv {n : Int} {m : Map} (h : Reachable n m) : m.Inv n := by
  induction h with
  | new h => exact Inv_New h
  | set k v _ hs ih =>
    obtain ⟨i, s, hg, _, rfl⟩ := Set_ok hs
    have hsi := ih.2 i s (getShard_ok hg).2
    refine Inv_set ih hg (distinctKeys_assignEntry hsi.distinct k v) fun e he => ?_
    rcases mem_assignEntry he with h | h
    · exact Or.inr (by rw [h])
    · exact Or.inl h
  | remove k _ hs ih =>
    obtain ⟨i, s, hg, _, rfl⟩ := Remove_ok hs
    have hsi := ih.2 i s (getShard_ok hg).2
    exact Inv_set ih hg (distinctKeys_eraseP hsi.distinct _)
      fun e he => Or.inl ((List.eraseP_sublist _).subset he)
  | update k fn _ hs ih =>
    obtain ⟨old, b, _, hset⟩ := Update_ok hs
    obtain ⟨i, s, hg, _, rfl⟩ := Set_ok hset
    have hsi := ih.2 i s (getShard_ok hg).2
    refine Inv_set ih hg (distinctKeys_assignEntry hsi.distinct k (fn old)) fun e he => ?_
    rcases mem_assignEntry he with h | h
    · exact Or.inr (by rw [h])
    · exact Or.inl h

/-- With at least one shard, every key of a reachable map is placed by getShard. -/
theorem Reachable.getShard_exists {n : Int} {m : Map} (h : Reachable n m) (hn : 1 ≤ n)
    (k : KT) : ∃ i s, m.getShard k = .ok (i, s) := by
  apply getShard_total
  have := h.inv.1
  omega

/-! ## Reading a key after a write -/

theorem mapaccess_congr {l1 l2 : List (KT × VT)} {k : KT}
    (h : l1.find? (fun e => goEq e.1 k) = l2.find? (fun e => goEq e.1 k)) :
    mapaccess l1 k = mapaccess l2 k := by
  simp only [mapaccess, h]

theorem index_lt_of_getShard {m : Map} {k : KT} {i : Nat} {s : shard}
    (h : m.getShard k = .ok (i, s)) : i < m.shards.length := by
  have := (getShard_ok h).2
  exact (List.getElem?_eq_some_iff.1 this).1

/-- Get of `k` in the map whose shard for `k` now holds `items`. -/
theorem Get_set_self {m : Map} {k : KT} {i : Nat} {s : shard} (hg : m.getShard k = .ok (i, s))
    (items : List (KT × VT)) :
    (Map.mk (m.shards.set i ⟨items⟩)).Get k = mapaccess items k := by
  rw [Get_eq (getShard_set hg (index_lt_of_getShard hg))]
  simp

/-- Get of `k` after the shard of another key was rewritten without touching what a lookup
of `k` finds. -/
theorem Get_set_other {m : Map} {k k1 : KT} {i : Nat} {s : shard}
    (h1 : 1 ≤ m.shards.length) (hg : m.getShard k1 = .ok (i, s)) {items : List (KT × VT)}
    (hfind : items.find? (fun e => goEq e.1 k) = s.items.find? (fun e => goEq e.1 k)) :
    (Map.mk (m.shards.set i ⟨items⟩)).Get k = m.Get k := by
  obtain ⟨i2, s2, hg2⟩ := getShard_total m k h1
  rw [Get_eq (getShard_set hg2 (index_lt_of_getShard hg)), Get_eq hg2]
  split
  · rename_i hii
    subst hii
    have : s2 = s := by
      have a := (getShard_ok hg).2
      have b := (getShard_ok hg2).2
      rw [a] at b
      exact (Option.some.inj b).symm
    subst this
    exact mapaccess_congr hfind
  · rfl

theorem Get_Set_other {n : Int} {m m1 : Map} (hm : Reachable n m) (hn : 1 ≤ n) {k k1 : KT}
    (hne : goEq k1 k = false) {v : VT} (hs : m.Set k1 v = .ok m1) : m1.Get k = m.Get k := by
  obtain ⟨i, s, hg, _, rfl⟩ := Set_ok hs
  have hlen : 1 ≤ m.shards.length := by have := hm.inv.1; omega
  exact Get_set_other hlen hg (find_assignEntry_of_ne hne v s.items)

theorem Get_Remove_other {n : Int} {m m1 : Map} (hm : Reachable n m) (hn : 1 ≤ n) {k k1 : KT}
    (hne : goEq k1 k = false) (hs : m.Remove k1 = .ok m1) : m1.Get k = m.Get k := by
  obtain ⟨i, s, hg, _, rfl⟩ := Remove_ok hs
  have hlen : 1 ≤ m.shards.length := by have := hm.inv.1; omega
  exact Get_set_other hlen hg (find_eraseP_of_ne hne s.items)

theorem Get_Update_other {n : Int} {m m1 : Map} (hm : Reachable n m) (hn : 1 ≤ n) {k k1 : KT}
    (hne : goEq k1 k = false) {fn : VT → VT} (hs : m.Update k1 fn = .ok m1) :
    m1.Get k = m.Get k := by
  obtain ⟨old, b, _, hset⟩ := Update_ok hs
  exact Get_Set_other hm hn hne hset

/-- Set of a hashable key on a reachable map: it returns, and what it does to Count. -/
theorem Set_Count {n : Int} {m : Map} (hm : Reachable n m) (hn : 1 ≤ n) {k : KT}
    (hk : hashable k = true) (v : VT) :
    ∃ m1, m.Set k v = .ok m1 ∧
      (m.Has k = .ok true → m1.Count = m.Count) ∧
      (m.Has k = .ok false → m1.Count = m.Count + 1) := by
  obtain ⟨i, s, hg⟩ := hm.getShard_exists hn k
  refine ⟨_, Set_eq hg hk v, ?_, ?_⟩
  · intro hh
    rw [Has_eq hg hk] at hh
    have hc := Count_set (getShard_ok hg).2 ⟨assignEntry k v s.items⟩
    cases hf : s.items.find? fun e => goEq e.1 k with
    | none => simp [hf] at hh
    | some e =>
      rw [length_assignEntry_of_found hf] at hc
      omega
  · intro hh
    rw [Has_eq hg hk] at hh
    have hc := Count_set (getShard_ok hg).2 ⟨assignEntry k v s.items⟩
    cases hf : s.items.find? fun e => goEq e.1 k with
    | some e => simp [hf] at hh
    | none =>
      rw [length_assignEntry_of_missing hf] at hc
      omega

/-- Remove of a hashable key on a reachable map: it returns, and what it does to Count. -/
theorem Remove_Count {n : Int} {m : Map} (hm : Reachable n m) (hn : 1 ≤ n) {k : KT}
    (hk : hashable k = true) :
    ∃ m1, m.Remove k = .ok m1 ∧
      (m.Has k = .ok true → m1.Count + 1 = m.Count) ∧
      (m.Has k = .ok false → m1.Count = m.Count) := by
  obtain ⟨i, s, hg⟩ := hm.getShard_exists hn k
  refine ⟨_, Remove_eq hg hk, ?_, ?_⟩
  · intro hh
    rw [Has_eq hg hk] at hh
    have hc := Count_set (getShard_ok hg).2 ⟨s.items.eraseP fun e => goEq e.1 k⟩
    cases hf : s.items.find? fun e => goEq e.1 k with
    | none => simp [hf] at hh
    | some e =>
      have := length_eraseP_of_found hf
      simp only at hc
      omega
  · intro hh
    rw [Has_eq hg hk] at hh
    have hc := Count_set (getShard_ok hg).2 ⟨s.items.eraseP fun e => goEq e.1 k⟩
    cases hf : s.items.find? fun e => goEq e.1 k with
    | some e => simp [hf] at hh
    | none =>
      have := congrArg List.length (eraseP_of_missing hf)
      simp only at hc
      omega

/-! ## Set, Get, Remove, Count and Update on reachable maps -/

theorem nameTestMap_reachable : Reachable 4 nameTestMap :=
  .set (.str "name") (.str "simon") (.new rfl) rfl

/-- C1, counterexample. On the map `New(4)` returns, Set under the float64 key NaN returns,
yet Get of that key then reports (nil, false) and Has reports false, because NaN is not `==`
to itself; and Set under the key `[]interface{}{"a"}` panics (unhashable type). -/
theorem C1_counterexample :
    ∃ m m1 : Map, New 4 = .ok m ∧ m.Set (.float64 .nan) (.str "v") = .ok m1 ∧
      m1.Get (.float64 .nan) = .ok (.null, false) ∧ m1.Has (.float64 .nan) = .ok false ∧
      m.Set (.slice [.str "a"]) (.str "v") = .error .unhashableKey :=
  ⟨_, _, rfl, rfl, rfl, rfl, rfl⟩

/-- C1, amended. For every shard count n >= 1, every map reachable from New(n), every value v
and every key k that Go can hash and that is `==` to itself (any key but a slice or NaN):
Set(k, v) returns, and afterwards Get(k) returns (v, true) and Has(k) is true. -/
theorem C1_set_then_get (n : Int) (hn : 1 ≤ n) (m : Map) (hm : Reachable n m) (k : KT) (v : VT)
    (hk : hashable k = true) (hkk : goEq k k = true) :
    ∃ m1, m.Set k v = .ok m1 ∧ m1.Get k = .ok (v, true) ∧ m1.Has k = .ok true := by
  obtain ⟨i, s, hg⟩ := hm.getShard_exists hn k
  have hget : (Map.mk (m.shards.set i ⟨assignEntry k v s.items⟩)).Get k = .ok (v, true) := by
    rw [Get_set_self hg]
    simp [mapaccess, hk, find_assignEntry_self hkk]
  exact ⟨_, Set_eq hg hk v, hget, by simp [Map.Has, hget]⟩

/-- C1, witness: `New(4)`, key "name", value "simon", as in TestSetCountAndGet. -/
theorem C1_witness :
    Reachable 4 ⟨List.replicate 4 ⟨[]⟩⟩ ∧ hashable (.str "name") = true ∧
      goEq (.str "name") (.str "name") = true ∧
      ∃ m1, (Map.mk (List.replicate 4 ⟨[]⟩)).Set (.str "name") (.str "simon") = .ok m1 ∧
        m1.Get (.str "name") = .ok (.str "simon", true) ∧ m1.Has (.str "name") = .ok true :=
  ⟨.new rfl, rfl, rfl,
    C1_set_then_get 4 (by decide) _ (.new rfl) (.str "name") (.str "simon") rfl rfl⟩

/-- C2, counterexample. On `New(4)` after Set("name2", "simon2"), Remove of the key
`[]interface{}{"a"}`, which is absent and routed to the shard that holds "name2", panics
(unhashable type) instead of doing nothing. -/
theorem C2_counterexample :
    ∃ m m1 : Map, New 4 = .ok m ∧ m.Set (.str "name2") (.str "simon2") = .ok m1 ∧
      getShardNumber (.str "name2") 4 = .ok 0 ∧
      getShardNumber (.slice [.str "a"]) 4 = .ok 0 ∧
      m1.Remove (.slice [.str "a"]) = .error .unhashableKey :=
  ⟨_, _, rfl, rfl, rfl, rfl, rfl⟩

/-- C2, amended. For every shard count n >= 1, every map reachable from New(n) and every key
k that Go can hash (present or absent): Remove(k) returns without a panic, and afterwards
Get(k) returns (nil, false). -/
theorem C2_remove_then_get (n : Int) (hn : 1 ≤ n) (m : Map) (hm : Reachable n m) (k : KT)
    (hk : hashable k = true) :
    ∃ m1, m.Remove k = .ok m1 ∧ m1.Get k = .ok (.null, false) := by
  obtain ⟨i, s, hg⟩ := hm.getShard_exists hn k
  refine ⟨_, Remove_eq hg hk, ?_⟩
  rw [Get_set_self hg]
  have hd := (hm.inv.2 i s (getShard_ok hg).2).distinct
  simp [mapaccess, hk, find_eraseP_self hd]

/-- C2, witness: the map of TestRemove, holding "name", and the key "name". -/
theorem C2_witness :
    Reachable 4 nameTestMap ∧ hashable (.str "name") = true ∧
      ∃ m1, nameTestMap.Remove (.str "name") = .ok m1 ∧
        m1.Get (.str "name") = .ok (.null, false) :=
  ⟨nameTestMap_reachable, rfl,
    C2_remove_then_get 4 (by decide) _ nameTestMap_reachable (.str "name") rfl⟩

/-- C3. For every shard count n >= 1, every map reachable from New(n) and every key k: if
Has(k) is true, Remove(k) returns and Count() afterwards is Count() before minus 1; if Has(k)
is false, Remove(k) returns and Count() is unchanged. -/
theorem C3_remove_count (n : Int) (hn : 1 ≤ n) (m : Map) (hm : Reachable n m) (k : KT) :
    (m.Has k = .ok true →
      ∃ m1, m.Remove k = .ok m1 ∧ (m1.Count : Int) = (m.Count : Int) - 1) ∧
    (m.Has k = .ok false → ∃ m1, m.Remove k = .ok m1 ∧ m1.Count = m.Count) := by
  constructor
  · intro hh
    obtain ⟨_, _, _, hk⟩ := Has_ok hh
    obtain ⟨m1, hr, h1, _⟩ := Remove_Count hm hn hk
    have := h1 hh
    exact ⟨m1, hr, by omega⟩
  · intro hh
    obtain ⟨_, _, _, hk⟩ := Has_ok hh
    obtain ⟨m1, hr, _, h2⟩ := Remove_Count hm hn hk
    exact ⟨m1, hr, h2 hh⟩

/-- C3, witness: the map of TestRemove; "name" is present and Count goes from 1 to 0, "other"
is absent and Count stays 1. -/
theorem C3_witness :
    Reachable 4 nameTestMap ∧
      (∃ m1, nameTestMap.Remove (.str "name") = .ok m1 ∧ (m1.Count : Int) = 1 - 1) ∧
      (∃ m1, nameTestMap.Remove (.str "other") = .ok m1 ∧ m1.Count = 1) :=
  ⟨nameTestMap_reachable,
    (C3_remove_count 4 (by decide) _ nameTestMap_reachable (.str "name")).1 rfl,
    (C3_remove_count 4 (by decide) _ nameTestMap_reachable (.str "other")).2 rfl⟩

/-- Has of `k` is Get of `k` without the value, so a write that leaves Get alone leaves Has
alone. -/
theorem Has_congr {m m1 : Map} {k : KT} (h : m1.Get k = m.Get k) : m1.Has k = m.Has k := by
  simp only [Map.Has, h]

/-- Setting keys that are hashable, pairwise different under `==` and all missing from a
reachable map raises Count by their number. -/
theorem setAll_Count {n : Int} (hn : 1 ≤ n) (kvs : List (KT × VT)) :
    ∀ m : Map, Reachable n m → (∀ e ∈ kvs, hashable e.1 = true) → distinctKeys kvs →
      (∀ e ∈ kvs, m.Has e.1 = .ok false) →
      ∃ m1, setAll m kvs = .ok m1 ∧ Reachable n m1 ∧ m1.Count = m.Count + kvs.length := by
  induction kvs with
  | nil => intro m hm _ _ _; exact ⟨m, rfl, hm, rfl⟩
  | cons e rest ih =>
    intro m hm hh hd hmiss
    have hd1 := List.pairwise_cons.1 hd
    obtain ⟨m1, hset, _, hc⟩ := Set_Count hm hn (hh e (List.mem_cons_self _ _)) e.2
    have hm1 : Reachable n m1 := .set e.1 e.2 hm hset
    have hmiss1 : ∀ x ∈ rest, m1.Has x.1 = .ok false := by
      intro x hx
      rw [Has_congr (Get_Set_other hm hn (hd1.1 x hx) hset)]
      exact hmiss x (List.mem_cons_of_mem _ hx)
    obtain ⟨m2, hall, hm2, hc2⟩ :=
      ih m1 hm1 (fun x hx => hh x (List.mem_cons_of_mem _ hx)) hd1.2 hmiss1
    refine ⟨m2, by simp [setAll, hset, hall], hm2, ?_⟩
    rw [hc2, hc (hmiss e (List.mem_cons_self _ _)), List.length_cons]
    omega

/-- Every key is missing from the map New returns. -/
theorem Has_New {n : Int} (hn : 1 ≤ n) {m : Map} (h : New n = .ok m) {k : KT}
    (hk : hashable k = true) : m.Has k = .ok false := by
  obtain ⟨i, s, hg⟩ := (Reachable.new h).getShard_exists hn k
  rw [Has_eq hg hk]
  have hs := (getShard_ok hg).2
  unfold New at h
  split at h
  · simp at h
  · simp only [Except.ok.injEq] at h
    subst h
    simp only [List.getElem?_replicate] at hs
    split at hs
    · simp only [Option.some.injEq] at hs
      subst hs
      rfl
    · simp at hs

theorem Count_New {n : Int} {m : Map} (h : New n = .ok m) : m.Count = 0 := by
  unfold New at h
  split at h
  · simp at h
  · simp only [Except.ok.injEq] at h
    subst h
    simp [Count_eq_sum]

/-- C4, counterexample. On the map `New(4)` returns, one call of Set, under the key
`[]interface{}{"a"}`, panics (unhashable type): no entry is stored and Count() stays 0, not
1. -/
theorem C4_counterexample :
    ∃ m : Map, New 4 = .ok m ∧
      setAll m [(.slice [.str "a"], .str "v")] = .error .unhashableKey ∧ m.Count = 0 :=
  ⟨_, rfl, rfl, rfl⟩

/-- C4, amended. For every shard count n >= 1 and every list of N keys that Go can hash and
that are pairwise different under `==` (with arbitrary values): New(n) returns a map, calling
Set once per key on it, with no other operation, returns every time, and Count() is then
exactly N. Count() is the sum of the sizes of all shards. -/
theorem C4_count_after_sets (n : Int) (hn : 1 ≤ n) (kvs : List (KT × VT))
    (hh : ∀ e ∈ kvs, hashable e.1 = true)
    (hd : kvs.Pairwise fun a b => goEq a.1 b.1 = false) :
    ∃ m m1 : Map, New n = .ok m ∧ setAll m kvs = .ok m1 ∧ m1.Count = kvs.length ∧
      m1.Count = (m1.shards.map fun s => s.items.length).sum := by
  have hnew : New n = .ok ⟨List.replicate n.toNat ⟨[]⟩⟩ := by
    have : ¬ n < 0 := by omega
    simp [New, this]
  obtain ⟨m1, hall, _, hc⟩ := setAll_Count hn kvs _ (.new hnew) hh hd
    (fun e he => Has_New hn hnew (hh e he))
  refine ⟨_, m1, hnew, hall, ?_, Count_eq_sum m1⟩
  rw [hc, Count_New hnew]
  omega

/-- C4, witness: `New(4)` and the four keys of TestIter; Count() is 4. -/
theorem C4_witness :
    ∃ m m1 : Map, New 4 = .ok m ∧
      setAll m [(.str "name1", .str "simon1"), (.str "name2", .str "simon2"),
        (.str "name3", .str "simon3"), (.str "name4", .str "simon4")] = .ok m1 ∧
      m1.Count = 4 ∧ m1.Count = (m1.shards.map fun s => s.items.length).sum :=
  C4_count_after_sets 4 (by decide)
    [(.str "name1", .str "simon1"), (.str "name2", .str "simon2"),
      (.str "name3", .str "simon3"), (.str "name4", .str "simon4")]
    (by simp [hashable]) (by simp [goEq])

/-- C5, counterexample. On the map `New(4)` returns, Update under the float64 key NaN with
the function that returns "bob" stores an entry, yet Get of that key afterwards reports
(nil, false), not ("bob", true). -/
theorem C5_counterexample :
    ∃ m m1 : Map, New 4 = .ok m ∧
      m.Update (.float64 .nan) (fun _ => .str "bob") = .ok m1 ∧ m1.Count = 1 ∧
      m1.Get (.float64 .nan) = .ok (.null, false) :=
  ⟨_, _, rfl, rfl, rfl, rfl⟩

/-- C5, amended. For every shard count n >= 1, every map reachable from New(n), every key k
that Go can hash and every function fn: Get(k) returns some (old, found), with old = nil when
found is false; Update(k, fn) returns and leaves the map in the same state as
Set(k, fn(old)); and if k is `==` to itself (k is not NaN), Get(k) afterwards returns
(fn(old), true). -/
theorem C5_update (n : Int) (hn : 1 ≤ n) (m : Map) (hm : Reachable n m) (k : KT)
    (fn : VT → VT) (hk : hashable k = true) :
    ∃ (old : VT) (found : Bool) (m1 : Map), m.Get k = .ok (old, found) ∧
      (found = false → old = .null) ∧ m.Update k fn = .ok m1 ∧ m.Set k (fn old) = .ok m1 ∧
      (goEq k k = true → m1.Get k = .ok (fn old, true)) := by
  obtain ⟨i, s, hg⟩ := hm.getShard_exists hn k
  have hget : ∃ old found, m.Get k = .ok (old, found) ∧ (found = false → old = .null) := by
    rw [Get_eq hg]
    simp only [mapaccess, hk, if_true]
    cases s.items.find? fun e => goEq e.1 k with
    | none => exact ⟨_, _, rfl, fun _ => rfl⟩
    | some e => exact ⟨_, _, rfl, by simp⟩
  obtain ⟨old, found, hg1, hnil⟩ := hget
  have hset := Set_eq hg hk (fn old)
  refine ⟨old, found, _, hg1, hnil, ?_, hset, fun hkk => ?_⟩
  · rw [Update_eq_Set, hg1]
    exact hset
  · rw [Get_set_self hg]
    simp [mapaccess, hk, find_assignEntry_self hkk]

/-- C5, witness: the map of TestReset, the key "name" and the function that returns "bob". -/
theorem C5_witness :
    Reachable 4 nameTestMap ∧ hashable (.str "name") = true ∧
      ∃ m1, nameTestMap.Update (.str "name") (fun _ => .str "bob") = .ok m1 ∧
        nameTestMap.Set (.str "name") (.str "bob") = .ok m1 ∧
        m1.Get (.str "name") = .ok (.str "bob", true) := by
  obtain ⟨old, found, m1, _, _, hu, hs, hg⟩ :=
    C5_update 4 (by decide) _ nameTestMap_reachable (.str "name") (fun _ => .str "bob") rfl
  exact ⟨nameTestMap_reachable, rfl, m1, hu, hs, hg rfl⟩

/-! ## Iter -/

theorem length_iterFrom {ro : Nat → List (KT × VT) → List (KT × VT)}
    (hro : ∀ i l, (ro i l).Perm l) (l : List shard) (i : Nat) :
    (iterFrom ro i l).length = (l.map fun s => s.items.length).sum := by
  induction l generalizing i with
  | nil => simp [iterFrom]
  | cons s l ih => simp [iterFrom, ih, (hro i s.items).length_eq]

theorem perm_iterFrom {ro : Nat → List (KT × VT) → List (KT × VT)}
    (hro : ∀ i l, (ro i l).Perm l) (l : List shard) (i : Nat) :
    (iterFrom ro i l).Perm (l.flatMap fun s => s.items.map fun e => Tuple.mk e.1 e.2) := by
  induction l generalizing i with
  | nil => simp [iterFrom]
  | cons s l ih =>
    simp only [iterFrom, List.flatMap_cons]
    exact List.Perm.append ((hro i s.items).map _) (ih (i + 1))

/-- A tuple is delivered exactly when its pair is an entry of some shard. -/
theorem mem_iterFrom {ro : Nat → List (KT × VT) → List (KT × VT)}
    (hro : ∀ i l, (ro i l).Perm l) (l : List shard) (i : Nat) (t : Tuple) :
    t ∈ iterFrom ro i l ↔
      ∃ (j : Nat) (s : shard), l[j]? = some s ∧ (t.Key, t.Val) ∈ s.items := by
  induction l generalizing i with
  | nil => simp [iterFrom]
  | cons s l ih =>
    simp only [iterFrom, List.mem_append, List.mem_map, ih]
    constructor
    · rintro (⟨e, he, rfl⟩ | ⟨j, s1, hj, hmem⟩)
      · exact ⟨0, s, by simp, (hro i s.items).subset he⟩
      · exact ⟨j + 1, s1, by simpa using hj, hmem⟩
    · rintro ⟨j, s1, hj, hmem⟩
      cases j with
      | zero =>
        simp only [List.getElem?_cons_zero, Option.some.injEq] at hj
        subst hj
        exact Or.inl ⟨_, (hro i s.items).symm.subset hmem, rfl⟩
      | succ j => exact Or.inr ⟨j, s1, by simpa using hj, hmem⟩

/-- Two deliveries of one and the same key: the key is not `==` to itself. -/
theorem pairwise_iterFrom {n : Int} {ro : Nat → List (KT × VT) → List (KT × VT)}
    (hro : ∀ i l, (ro i l).Perm l) (l : List shard) (i : Nat)
    (hinv : ∀ j s, l[j]? = some s → shardInv n (i + j) s) :
    (iterFrom ro i l).Pairwise fun a b => a.Key = b.Key → goEq a.Key a.Key = false := by
  induction l generalizing i with
  | nil => simp [iterFrom]
  | cons s l ih =>
    have hs := hinv 0 s (by simp)
    have hrest : ∀ j s1, l[j]? = some s1 → shardInv n (i + 1 + j) s1 := by
      intro j s1 hj
      have := hinv (j + 1) s1 (by simpa using hj)
      rwa [show i + (j + 1) = i + 1 + j by omega] at this
    simp only [iterFrom]
    refine List.pairwise_append.2 ⟨?_, ih (i + 1) hrest, ?_⟩
    · have hd : distinctKeys (ro i s.items) :=
        ((hro i s.items).pairwise_iff (fun {a b} h => by rw [goEq_symm]; exact h)).2
          hs.distinct
      refine (List.pairwise_map.2 ?_)
      exact hd.imp (fun {a b} h hab => by simp only at hab ⊢; rw [← hab] at h; exact h)
    · intro a ha b hb hab
      obtain ⟨e, he, rfl⟩ := List.mem_map.1 ha
      obtain ⟨j, s1, hj, hmem⟩ := (mem_iterFrom hro l (i + 1) b).1 hb
      have h1 := hs.routed e ((hro i s.items).subset he)
      have h2 := (hrest j s1 hj).routed _ hmem
      simp only at hab
      rw [← hab, h1] at h2
      simp only [Nat.add_zero, Except.ok.injEq, Nat.cast_inj] at h2
      omega

/-- In a shard whose keys are pairwise different, a lookup of a key that is `==` to itself
finds the entry stored under that very key. -/
theorem find_of_mem {l : List (KT × VT)} (hd : distinctKeys l) {k : KT} {v : VT}
    (hkk : goEq k k = true) (hmem : (k, v) ∈ l) :
    l.find? (fun e => goEq e.1 k) = some (k, v) := by
  induction l with
  | nil => simp at hmem
  | cons e l ih =>
    have hd1 := List.pairwise_cons.1 hd
    rcases List.mem_cons.1 hmem with h | h
    · subst h
      simp [List.find?_cons, hkk]
    · have : goEq e.1 k = false := hd1.1 (k, v) h
      simp only [List.find?_cons, this]
      exact ih hd1.2 h

theorem iterTestMap_reachable : Reachable 4 iterTestMap :=
  .set (.str "name4") (.str "simon4")
    (.set (.str "name3") (.str "simon3")
      (.set (.str "name2") (.str "simon2")
        (.set (.str "name1") (.str "simon1") (.new rfl) rfl) rfl) rfl) rfl

/-- For a string key `==` is identity. -/
theorem goEq_str_iff (s : String) (k1 : KT) : goEq k1 (.str s) = true ↔ k1 = .str s := by
  cases k1 <;> simp [goEq]

/-- C6, counterexample. (1) On `New(4)`, after Set(NaN, 1) and Set(NaN, 2), Iter delivers
(NaN, 1) and (NaN, 2): the key NaN occurs twice, and Get(NaN) reports (nil, false) although
a tuple with that key is delivered. (2) On `New(1)`, after Set(+0.0, 1), Get(-0.0) reports
(1, true), yet the one tuple delivered carries the key +0.0. (3) On `New(2)`, after
Set(+0.0, 1), the tuple (+0.0, 1) is delivered and +0.0 == -0.0, yet Get(-0.0) reports
(nil, false): the two zeros are routed to different shards. -/
theorem C6_counterexample :
    (∃ m m1 m2 : Map, New 4 = .ok m ∧ m.Set (.float64 .nan) (.int 1) = .ok m1 ∧
      m1.Set (.float64 .nan) (.int 2) = .ok m2 ∧
      m2.Iter (fun _ l => l) = [⟨.float64 .nan, .int 1⟩, ⟨.float64 .nan, .int 2⟩] ∧
      m2.Get (.float64 .nan) = .ok (.null, false)) ∧
    (∃ m m1 : Map, New 1 = .ok m ∧ m.Set (.float64 (.zero false)) (.int 1) = .ok m1 ∧
      m1.Iter (fun _ l => l) = [⟨.float64 (.zero false), .int 1⟩] ∧
      m1.Get (.float64 (.zero true)) = .ok (.int 1, true)) ∧
    (∃ m m1 : Map, New 2 = .ok m ∧ m.Set (.float64 (.zero false)) (.int 1) = .ok m1 ∧
      m1.Iter (fun _ l => l) = [⟨.float64 (.zero false), .int 1⟩] ∧
      goEq (.float64 (.zero false)) (.float64 (.zero true)) = true ∧
      m1.Get (.float64 (.zero true)) = .ok (.null, false)) :=
  ⟨⟨_, _, _, rfl, rfl, rfl, rfl, rfl⟩, ⟨_, _, rfl, rfl, rfl, rfl⟩,
    ⟨_, _, rfl, rfl, rfl, rfl, rfl⟩⟩

/-- C6, amended. For every shard count n >= 1 and every map reachable from New(n), with no
concurrent mutation, whatever order `range` visits the entries of each shard in: the
sequence of Tuples Iter delivers before the channel is closed is a rearrangement of the
entries stored in the shards, so it contains every stored entry exactly once and nothing
else, and its length equals Count(); no key that is `==` to itself (no key but NaN) occurs
twice in it; a delivered Tuple (k, v) whose key is `==` to itself has Get(k) = (v, true); and
for every key k for which `==` is identity (any hashable key but a float64 zero or NaN), a
Tuple (k, v) occurs in it if and only if Get(k) = (v, true). -/
theorem C6_iter (n : Int) (_hn : 1 ≤ n) (m : Map) (hm : Reachable n m)
    (rangeOrder : Nat → List (KT × VT) → List (KT × VT))
    (hro : ∀ i l, (rangeOrder i l).Perm l) :
    (m.Iter rangeOrder).Perm (m.shards.flatMap fun s => s.items.map fun e => Tuple.mk e.1 e.2) ∧
    (m.Iter rangeOrder).length = m.Count ∧
    (m.Iter rangeOrder).Pairwise (fun a b => a.Key = b.Key → goEq a.Key a.Key = false) ∧
    (∀ k v, goEq k k = true → Tuple.mk k v ∈ m.Iter rangeOrder →
      m.Get k = .ok (v, true)) ∧
    (∀ k v, (∀ k1, goEq k1 k = true ↔ k1 = k) →
      (Tuple.mk k v ∈ m.Iter rangeOrder ↔ m.Get k = .ok (v, true))) := by
  have hinv := hm.inv
  have hfwd : ∀ k v, goEq k k = true → Tuple.mk k v ∈ m.Iter rangeOrder →
      m.Get k = .ok (v, true) := by
    intro k v hkk hmem
    obtain ⟨j, s, hj, hin⟩ := (mem_iterFrom hro m.shards 0 _).1 hmem
    have hs := hinv.2 j s hj
    have hnum := hs.routed _ hin
    simp only at hnum hin
    rw [← hinv.1] at hnum
    rw [Get_eq (getShard_of_number hnum hj)]
    simp [mapaccess, hashable_of_goEq hkk, find_of_mem hs.distinct hkk hin]
  refine ⟨perm_iterFrom hro _ _, ?_, ?_, hfwd, ?_⟩
  · rw [Map.Iter, length_iterFrom hro, Count_eq_sum]
  · exact pairwise_iterFrom hro m.shards 0 (fun j s hj => by simpa using hinv.2 j s hj)
  · intro k v hid
    refine ⟨hfwd k v ((hid k).2 rfl), fun hget => ?_⟩
    obtain ⟨i, s, hg, hk⟩ := Get_ok hget
    rw [Get_eq hg] at hget
    simp only [mapaccess, hk, if_true] at hget
    refine (mem_iterFrom hro m.shards 0 _).2 ⟨i, s, (getShard_ok hg).2, ?_⟩
    cases hf : s.items.find? fun e => goEq e.1 k with
    | none => simp [hf] at hget
    | some e =>
      simp only [hf, Except.ok.injEq, Prod.mk.injEq, and_true] at hget
      have hp : goEq e.1 k = true := by simpa using List.find?_some hf
      have h1 := (hid e.1).1 hp
      have h2 := List.mem_of_find?_eq_some hf
      simp only
      rw [← h1, ← hget]
      exact h2

/-- C6, witness: the map of TestIter, entries visited in stored order; four tuples are
delivered, and ("name1", "simon1") is among them exactly because Get("name1") finds it. -/
theorem C6_witness :
    Reachable 4 iterTestMap ∧
      (iterTestMap.Iter fun _ l => l).length = iterTestMap.Count ∧
      (Tuple.mk (.str "name1") (.str "simon1") ∈ iterTestMap.Iter (fun _ l => l) ↔
        iterTestMap.Get (.str "name1") = .ok (.str "simon1", true)) :=
  ⟨iterTestMap_reachable,
    (C6_iter 4 (by decide) _ iterTestMap_reachable (fun _ l => l)
      (fun _ _ => List.Perm.refl _)).2.1,
    (C6_iter 4 (by decide) _ iterTestMap_reachable (fun _ l => l)
      (fun _ _ => List.Perm.refl _)).2.2.2.2 _ _ (goEq_str_iff "name1")⟩

/-! ## json.Marshal returns bytes, and the hash of the program is FNV-1 -/

theorem allBytes_append {a b : List Nat} (ha : allBytes a) (hb : allBytes b) :
    allBytes (a ++ b) := by
  intro x hx
  rcases List.mem_append.1 hx with h | h
  · exact ha x h
  · exact hb x h

theorem allBytes_decDigits (fuel n : Nat) : allBytes (decDigits fuel n) := by
  induction fuel generalizing n with
  | zero => simp [decDigits, allBytes]
  | succ f ih =>
    unfold decDigits
    split
    · intro b hb
      simp only [List.mem_singleton] at hb
      omega
    · apply allBytes_append (ih _)
      intro b hb
      simp only [List.mem_singleton] at hb
      omega

theorem allBytes_formatInt (i : Int) : allBytes (formatInt i) := by
  unfold formatInt
  split
  · intro b hb
    rcases List.mem_cons.1 hb with h | h
    · omega
    · exact allBytes_decDigits _ _ b h
  · exact allBytes_decDigits _ _

theorem hexDigit_lt {d : Nat} (h : d < 16) : hexDigit d < 256 := by
  unfold hexDigit
  split <;> omega

theorem allBytes_utf8Bytes {c : Nat} (h : c < 0x110000) : allBytes (utf8Bytes c) := by
  unfold utf8Bytes
  intro b hb
  split_ifs at hb <;>
    simp only [List.mem_cons, List.mem_singleton, List.not_mem_nil, or_false] at hb <;> omega

theorem allBytes_escapeChar {c : Nat} (h : c < 0x110000) : allBytes (escapeChar c) := by
  unfold escapeChar
  intro b hb
  have h1 := @hexDigit_lt (c / 16)
  have h2 := hexDigit_lt (d := c % 16) (by omega)
  split_ifs at hb
  case neg => exact allBytes_utf8Bytes h b hb
  all_goals
    simp only [List.mem_cons, List.mem_singleton, List.not_mem_nil, or_false] at hb
    omega

theorem char_toNat_lt (c : Char) : c.toNat < 0x110000 := by
  have := c.valid
  simp only [Char.toNat]
  rcases this with h | h
  · have : c.val.toNat < 0xd800 := h
    omega
  · exact h.2

theorem allBytes_marshalString (s : String) : allBytes (marshalString s) := by
  unfold marshalString
  apply allBytes_append
  · apply allBytes_append
    · intro b hb; simp only [List.mem_singleton] at hb; omega
    · intro b hb
      obtain ⟨l, hl, hbl⟩ := List.mem_flatten.1 hb
      obtain ⟨c, _, rfl⟩ := List.mem_map.1 hl
      exact allBytes_escapeChar (char_toNat_lt c) b hbl
  · intro b hb; simp only [List.mem_singleton] at hb; omega

mutual
theorem allBytes_jsonMarshal : ∀ (k : KT) (j : List Nat), jsonMarshal k = some j → allBytes j
  | .null, j, h => by
    simp only [jsonMarshal, Option.some.injEq] at h
    subst h; intro b hb; simp at hb; omega
  | .bool true, j, h => by
    simp only [jsonMarshal, Option.some.injEq] at h
    subst h; intro b hb; simp at hb; omega
  | .bool false, j, h => by
    simp only [jsonMarshal, Option.some.injEq] at h
    subst h; intro b hb; simp at hb; omega
  | .int i, j, h => by
    simp only [jsonMarshal, Option.some.injEq] at h
    subst h; exact allBytes_formatInt i
  | .float64 f, j, h => by
    simp only [jsonMarshal] at h
    cases f with
    | zero neg =>
      cases neg <;> simp [marshalFloat] at h <;> subst h <;> intro b hb <;> simp at hb <;>
        omega
    | inf neg => simp [marshalFloat] at h
    | nan => simp [marshalFloat] at h
  | .str s, j, h => by
    simp only [jsonMarshal, Option.some.injEq] at h
    subst h; exact allBytes_marshalString s
  | .slice xs, j, h => by
    simp only [jsonMarshal, Option.map_eq_some'] at h
    obtain ⟨b, hb, rfl⟩ := h
    have := allBytes_marshalElems xs b hb
    apply allBytes_append
    · apply allBytes_append
      · intro x hx; simp only [List.mem_singleton] at hx; omega
      · exact this
    · intro x hx; simp only [List.mem_singleton] at hx; omega
theorem allBytes_marshalElems :
    ∀ (xs : List KT) (j : List Nat), marshalElems xs = some j → allBytes j
  | [], j, h => by
    simp only [marshalElems, Option.some.injEq] at h
    subst h; intro b hb; simp at hb
  | [x], j, h => by
    simp only [marshalElems] at h
    exact allBytes_jsonMarshal x j h
  | x :: y :: r, j, h => by
    simp only [marshalElems] at h
    cases h1 : jsonMarshal x with
    | none => simp [h1] at h
    | some a =>
      cases h2 : marshalElems (y :: r) with
      | none => simp [h1, h2] at h
      | some b =>
        simp only [h1, h2, Option.some.injEq] at h
        subst h
        apply allBytes_append
        · apply allBytes_append (allBytes_jsonMarshal x a h1)
          intro c hc; simp only [List.mem_singleton] at hc; omega
        · exact allBytes_marshalElems (y :: r) b h2
end

theorem fnv32_eq_fnv1 {j : List Nat} (h : allBytes j) : fnv32 j = fnv1 j := by
  unfold fnv32 fnv1
  generalize 2166136261 = a
  induction j generalizing a with
  | nil => rfl
  | cons b l ih =>
    have hb : b % 256 = b := Nat.mod_eq_of_lt (h b (List.mem_cons_self _ _))
    simp only [List.foldl_cons, fnv1From, fnvStep, hb]
    exact ih (fun x hx => h x (List.mem_cons_of_mem _ hx)) _

/-! ## The shard number -/

/-- C7. For every key that has a JSON serialization and every shard count n > 1,
getShardNumber(key, n) is H mod n, H being the 32-bit FNV-1 hash of the bytes json.Marshal
returns for the key. -/
theorem C7_shard_number (key : KT) (n : Int) (hn : 1 < n) (j : List Nat)
    (hj : jsonMarshal key = some j) :
    getShardNumber key n = .ok ((fnv1 j : Int) % n) := by
  rw [getShardNumber_of_one_lt key hn, hj, Option.getD_some,
    fnv32_eq_fnv1 (allBytes_jsonMarshal key j hj)]

/-- C7, witness: with n = 4 the keys "another string", "444", true, false and
`[]interface{}{"a"}` of TestShardWithObjects have shard numbers 1, 3, 1, 2 and 0. -/
theorem C7_witness :
    jsonMarshal (.slice [.str "a"]) = some [0x5B, 0x22, 0x61, 0x22, 0x5D] ∧
      getShardNumber (.str "another string") 4 = .ok 1 ∧
      getShardNumber (.str "444") 4 = .ok 3 ∧
      getShardNumber (.bool true) 4 = .ok 1 ∧
      getShardNumber (.bool false) 4 = .ok 2 ∧
      getShardNumber (.slice [.str "a"]) 4 = .ok 0 :=
  ⟨rfl, (C7_shard_number (.str "another string") 4 (by decide) _ rfl).trans rfl,
    (C7_shard_number (.str "444") 4 (by decide) _ rfl).trans rfl,
    (C7_shard_number (.bool true) 4 (by decide) _ rfl).trans rfl,
    (C7_shard_number (.bool false) 4 (by decide) _ rfl).trans rfl,
    (C7_shard_number (.slice [.str "a"]) 4 (by decide) _ rfl).trans rfl⟩

/-- When json.Marshal fails, the shard number is the hash of no bytes at all, the offset
basis, modulo the shard count. -/
theorem getShardNumber_of_marshal_error (key : KT) {n : Int} (hn : 1 < n)
    (hj : jsonMarshal key = none) : getShardNumber key n = .ok (2166136261 % n) := by
  rw [getShardNumber_of_one_lt key hn, hj]
  rfl

/-- At a width of 32 bits `int(hasher.Sum32())` would be negative for the key `true`, and
so would the shard number; the expectations of TestShardWithObjects are those of 64 bits. -/
theorem wrapSigned_32_true :
    jsonMarshal (.bool true) = some [0x74, 0x72, 0x75, 0x65] ∧
      fnv32 [0x74, 0x72, 0x75, 0x65] = 3053630529 ∧
      wrapSigned 32 3053630529 = -1241336767 ∧ Int.tmod (-1241336767) 4 = -3 ∧
      toInt 3053630529 = 3053630529 :=
  ⟨rfl, rfl, rfl, rfl, rfl⟩

/-- C8. For every key and every shard count n >= 1, getShardNumber(key, n) returns an index
i with 0 <= i < n, the conversion `int(hasher.Sum32())` keeping the value of the hash; so
on a map of n shards getShard finds the shard at that index without an index panic; and
getShardNumber(key, 1) = 0. -/
theorem C8_shard_in_bounds (key : KT) (n : Int) (hn : 1 ≤ n) :
    (∃ i : Int, getShardNumber key n = .ok i ∧ 0 ≤ i ∧ i < n) ∧
    (∀ j : List Nat, toInt (fnv32 j) = (fnv32 j : Int)) ∧
    (∀ m : Map, (m.shards.length : Int) = n →
      ∃ (i : Nat) (s : shard), m.getShard key = .ok (i, s) ∧
        getShardNumber key n = .ok (i : Int) ∧ m.shards[i]? = some s) ∧
    getShardNumber key 1 = .ok 0 := by
  refine ⟨?_, fun j => toInt_of_lt (fnv32_lt j), ?_, getShardNumber_one key⟩
  · obtain ⟨i, hi, hlt⟩ := getShardNumber_nat key hn
    exact ⟨i, hi, by omega, hlt⟩
  · intro m hm
    obtain ⟨i, s, hg⟩ := getShard_total m key (by omega)
    have := getShard_ok hg
    rw [hm] at this
    exact ⟨i, s, hg, this.1, this.2⟩

/-- C8, witness: the key `false` and 4 shards; the index is 2. -/
theorem C8_witness :
    (∃ i : Int, getShardNumber (.bool false) 4 = .ok i ∧ 0 ≤ i ∧ i < 4) ∧
      getShardNumber (.bool false) 4 = .ok 2 ∧ getShardNumber (.bool false) 1 = .ok 0 :=
  ⟨(C8_shard_in_bounds (.bool false) 4 (by decide)).1, rfl,
    (C8_shard_in_bounds (.bool false) 4 (by decide)).2.2.2⟩

/-! ## Writes under one key leave the other keys alone -/

/-- C9. For every shard count n >= 1, every map reachable from New(n) and any two keys k and
k1 that are different under `==` (whether or not they route to the same shard): whenever
Set(k1, v), Remove(k1) or Update(k1, fn) returns, Get(k) gives afterwards what it gave
before (and each of the three does return when k1 can be hashed); Set and Update on a key for
which Has is true, and Remove on a key for which Has is false, return and leave Count()
unchanged. -/
theorem C9_frame (n : Int) (hn : 1 ≤ n) (m : Map) (hm : Reachable n m) (k k1 : KT)
    (hne : goEq k1 k = false) (v : VT) (fn : VT → VT) :
    (∀ m1, m.Set k1 v = .ok m1 → m1.Get k = m.Get k) ∧
    (∀ m1, m.Remove k1 = .ok m1 → m1.Get k = m.Get k) ∧
    (∀ m1, m.Update k1 fn = .ok m1 → m1.Get k = m.Get k) ∧
    (hashable k1 = true →
      ∃ m1 m2 m3, m.Set k1 v = .ok m1 ∧ m.Remove k1 = .ok m2 ∧ m.Update k1 fn = .ok m3) ∧
    (m.Has k1 = .ok true →
      (∃ m1, m.Set k1 v = .ok m1 ∧ m1.Count = m.Count) ∧
      (∃ m1, m.Update k1 fn = .ok m1 ∧ m1.Count = m.Count)) ∧
    (m.Has k1 = .ok false → ∃ m1, m.Remove k1 = .ok m1 ∧ m1.Count = m.Count) := by
  have hupd : ∀ hk : hashable k1 = true, ∃ old b, m.Get k1 = .ok (old, b) := by
    intro hk
    obtain ⟨i, s, hg⟩ := hm.getShard_exists hn k1
    rw [Get_eq hg]
    simp only [mapaccess, hk, if_true]
    cases s.items.find? fun e => goEq e.1 k1 with
    | none => exact ⟨_, _, rfl⟩
    | some e => exact ⟨_, _, rfl⟩
  refine ⟨fun m1 h => Get_Set_other hm hn hne h, fun m1 h => Get_Remove_other hm hn hne h,
    fun m1 h => Get_Update_other hm hn hne h, fun hk => ?_, fun hh => ⟨?_, ?_⟩, fun hh => ?_⟩
  · obtain ⟨m1, h1, _⟩ := Set_Count hm hn hk v
    obtain ⟨m2, h2, _⟩ := Remove_Count hm hn hk
    obtain ⟨old, b, hg⟩ := hupd hk
    obtain ⟨m3, h3, _⟩ := Set_Count hm hn hk (fn old)
    exact ⟨m1, m2, m3, h1, h2, by rw [Update_eq_Set, hg]; exact h3⟩
  · obtain ⟨_, _, _, hk⟩ := Has_ok hh
    obtain ⟨m1, h1, hc, _⟩ := Set_Count hm hn hk v
    exact ⟨m1, h1, hc hh⟩
  · obtain ⟨_, _, _, hk⟩ := Has_ok hh
    obtain ⟨old, b, hg⟩ := hupd hk
    obtain ⟨m3, h3, hc, _⟩ := Set_Count hm hn hk (fn old)
    exact ⟨m3, by rw [Update_eq_Set, hg]; exact h3, hc hh⟩
  · obtain ⟨_, _, _, hk⟩ := Has_ok hh
    obtain ⟨m1, h1, _, hc⟩ := Remove_Count hm hn hk
    exact ⟨m1, h1, hc hh⟩

/-- C9, witness: the map of TestIter. Update of "name2" leaves Get("name1") alone and,
"name2" being present, leaves Count() at 4. -/
theorem C9_witness :
    Reachable 4 iterTestMap ∧ goEq (.str "name2") (.str "name1") = false ∧
      (∀ m1, iterTestMap.Update (.str "name2") (fun _ => .str "george") = .ok m1 →
        m1.Get (.str "name1") = iterTestMap.Get (.str "name1")) ∧
      (∃ m1, iterTestMap.Update (.str "name2") (fun _ => .str "george") = .ok m1 ∧
        m1.Count = iterTestMap.Count) :=
  ⟨iterTestMap_reachable, rfl,
    (C9_frame 4 (by decide) _ iterTestMap_reachable (.str "name1") (.str "name2") rfl
      (.str "v") (fun _ => .str "george")).2.2.1,
    ((C9_frame 4 (by decide) _ iterTestMap_reachable (.str "name1") (.str "name2") rfl
      (.str "v") (fun _ => .str "george")).2.2.2.2.1 rfl).2⟩

/-! ## New with no shards, or fewer -/

/-- C10, counterexample. `New(0)` returns a Map, one with no shards, and reports no error,
InvalidConfig or other. -/
theorem C10_counterexample : New 0 = .ok ⟨[]⟩ ∧ (Map.mk []).Count = 0 :=
  ⟨rfl, rfl⟩

/-- C10, amended. For every shardCount < 0, New(shardCount) panics in `make` (len out of
range) and returns no Map. New(0) returns a Map with no shards: its Count() is 0 and
IsEmpty() is true, and Set, Get, Has, Remove and Update on it panic for every key (integer
divide by zero in getShardNumber). No InvalidConfig error exists. -/
theorem C10_new_nonpositive (shardCount : Int) (h : shardCount ≤ 0) :
    (shardCount < 0 → New shardCount = .error .makeSliceLen) ∧
    (shardCount = 0 →
      New shardCount = .ok ⟨[]⟩ ∧ (Map.mk []).Count = 0 ∧ (Map.mk []).IsEmpty = true ∧
      ∀ (k : KT) (v : VT) (fn : VT → VT),
        (Map.mk []).Set k v = .error .divideByZero ∧
        (Map.mk []).Get k = .error .divideByZero ∧
        (Map.mk []).Has k = .error .divideByZero ∧
        (Map.mk []).Remove k = .error .divideByZero ∧
        (Map.mk []).Update k fn = .error .divideByZero) := by
  have hnum : ∀ k : KT, (Map.mk []).getShard k = .error .divideByZero := by
    intro k
    simp [Map.getShard, getShardNumber]
  refine ⟨fun hlt => by simp [New, hlt], fun h0 => ?_⟩
  subst h0
  refine ⟨rfl, rfl, rfl, fun k v fn => ?_⟩
  simp [Map.Set, Map.Get, Map.Has, Map.Remove, Map.Update, hnum]

/-- C10, witness: `New(-1)` panics. -/
theorem C10_witness : (-1 : Int) ≤ 0 ∧ New (-1) = .error .makeSliceLen :=
  ⟨by decide, (C10_new_nonpositive (-1) (by decide)).1 (by decide)⟩

/-! ## Keys that json.Marshal rejects -/

/-- C11, counterexample. On `New(4)`, Set under the float64 key +Inf, which json.Marshal
rejects, reports no failure: it returns, the map then holds one entry, and Get of the key
returns ("v", true). -/
theorem C11_counterexample :
    ∃ m m1 : Map, New 4 = .ok m ∧ jsonMarshal (.float64 (.inf false)) = none ∧
      m.Set (.float64 (.inf false)) (.str "v") = .ok m1 ∧ m1.Count = 1 ∧
      m1.Get (.float64 (.inf false)) = .ok (.str "v", true) :=
  ⟨_, _, rfl, rfl, rfl, rfl, rfl⟩

/-- C11, amended. For every n > 1, every map reachable from New(n) and every key whose
serialization fails (json.Marshal returns an error): no InvalidKey failure is reported.
getShardNumber drops the error and routes the key as if it had no bytes, to shard
2166136261 mod n. If Go can hash the key, Set, Get, Has, Remove and Update all return, and
after Set(key, v) a key that is `==` to itself has Get(key) = (v, true), so the contents do
change. If Go cannot hash the key, all five panic (unhashable type) and store nothing. -/
theorem C11_marshal_error_ignored (n : Int) (hn : 1 < n) (m : Map) (hm : Reachable n m)
    (key : KT) (hj : jsonMarshal key = none) (v : VT) (fn : VT → VT) :
    getShardNumber key n = .ok (2166136261 % n) ∧
    (hashable key = true →
      ∃ (m1 m2 m3 : Map) (r : VT × Bool),
        m.Set key v = .ok m1 ∧ m.Get key = .ok r ∧ m.Has key = .ok r.2 ∧
        m.Remove key = .ok m2 ∧ m.Update key fn = .ok m3 ∧
        (goEq key key = true → m1.Get key = .ok (v, true))) ∧
    (hashable key = false →
      m.Set key v = .error .unhashableKey ∧ m.Get key = .error .unhashableKey ∧
      m.Has key = .error .unhashableKey ∧ m.Remove key = .error .unhashableKey ∧
      m.Update key fn = .error .unhashableKey) := by
  have hn1 : (1 : Int) ≤ n := by omega
  obtain ⟨i, s, hg⟩ := hm.getShard_exists hn1 key
  refine ⟨getShardNumber_of_marshal_error key hn hj, fun hk => ?_, fun hk => ?_⟩
  · have hget : ∃ r, m.Get key = .ok r := by
      rw [Get_eq hg]
      simp only [mapaccess, hk, if_true]
      cases s.items.find? fun e => goEq e.1 key with
      | none => exact ⟨_, rfl⟩
      | some e => exact ⟨_, rfl⟩
    obtain ⟨r, hr⟩ := hget
    have hu : m.Update key fn = .ok ⟨m.shards.set i ⟨assignEntry key (fn r.1) s.items⟩⟩ := by
      rw [Update_eq_Set, hr]
      exact Set_eq hg hk (fn r.1)
    refine ⟨_, _, _, r, Set_eq hg hk v, hr, by simp [Map.Has, hr], Remove_eq hg hk, hu,
      fun hkk => ?_⟩
    rw [Get_set_self hg]
    simp [mapaccess, hk, find_assignEntry_self hkk]
  · simp [Map.Set, Map.Get, Map.Has, Map.Remove, Map.Update, hg, mapassign, mapaccess,
      mapdelete, hk]

/-- C11, witness: the key +Inf on the map of TestIter. -/
theorem C11_witness :
    Reachable 4 iterTestMap ∧ jsonMarshal (.float64 (.inf false)) = none ∧
      getShardNumber (.float64 (.inf false)) 4 = .ok 1 ∧
      ∃ m1, iterTestMap.Set (.float64 (.inf false)) (.str "v") = .ok m1 ∧
        m1.Get (.float64 (.inf false)) = .ok (.str "v", true) := by
  obtain ⟨h1, h2, _⟩ := C11_marshal_error_ignored 4 (by decide) _ iterTestMap_reachable
    (.float64 (.inf false)) rfl (.str "v") id
  obtain ⟨m1, _, _, _, hs, _, _, _, _, hget⟩ := h2 rfl
  exact ⟨iterTestMap_reachable, rfl, h1, m1, hs, hget rfl⟩

/-! ## Routing depends on the serialization only -/

theorem getShardNumber_congr {k1 k2 : KT} (n : Int) (h : jsonMarshal k1 = jsonMarshal k2) :
    getShardNumber k1 n = getShardNumber k2 n := by
  simp only [getShardNumber, h]

/-- C12. For all keys k1, k2 whose serialized byte forms are equal (json.Marshal returns the
same for both) and every shard count n, getShardNumber(k1, n) = getShardNumber(k2, n);
getShardNumber is a function of the serialized key and n alone. -/
theorem C12_same_serialization (k1 k2 : KT) (n : Int) (h : jsonMarshal k1 = jsonMarshal k2) :
    getShardNumber k1 n = getShardNumber k2 n ∧
    ∃ f : Option (List Nat) → Int → Except Panic Int,
      ∀ (key : KT) (c : Int), getShardNumber key c = f (jsonMarshal key) c := by
  refine ⟨getShardNumber_congr n h, fun j c => if c = 1 then .ok 0 else
    if c = 0 then .error .divideByZero else .ok (Int.tmod (toInt (fnv32 (j.getD []))) c), ?_⟩
  intro key c
  simp only [getShardNumber]

/-- C12, witness: the int 0 and the float64 +0.0 both serialize to the one byte "0" and
both have shard number 3 of 4. -/
theorem C12_witness :
    jsonMarshal (.int 0) = some [0x30] ∧ jsonMarshal (.float64 (.zero false)) = some [0x30] ∧
      getShardNumber (.int 0) 4 = getShardNumber (.float64 (.zero false)) 4 ∧
      getShardNumber (.int 0) 4 = .ok 3 :=
  ⟨rfl, rfl, (C12_same_serialization (.int 0) (.float64 (.zero false)) 4 rfl).1, rfl⟩

/-! ## Keys that are `==` -/

theorem goEq_congr_right {a b : KT} (h : goEq a b = true) (c : KT) : goEq c a = goEq c b := by
  rw [goEq_symm c a, goEq_symm c b]
  exact goEq_congr_left h c

/-- A lookup cannot tell two keys that are `==` apart. -/
theorem mapaccess_of_goEq {k1 k2 : KT} (h : goEq k1 k2 = true) (l : List (KT × VT)) :
    mapaccess l k2 = mapaccess l k1 := by
  have hp : (fun e : KT × VT => goEq e.1 k2) = fun e => goEq e.1 k1 :=
    funext fun e => (goEq_congr_right h e.1).symm
  have h2 : hashable k2 = true := hashable_of_goEq h
  have h1 : hashable k1 = true := hashable_of_goEq ((goEq_symm k2 k1).trans h)
  simp only [mapaccess, hp, h1, h2]

/-- Two keys that are `==` and have the same shard number get the same answer from Get. -/
theorem Get_of_goEq {m : Map} {k1 k2 : KT} (h : goEq k1 k2 = true)
    (hnum : getShardNumber k1 m.shards.length = getShardNumber k2 m.shards.length) :
    m.Get k2 = m.Get k1 := by
  have hg : m.getShard k2 = m.getShard k1 := by simp only [Map.getShard, hnum]
  simp only [Map.Get, hg]
  cases m.getShard k1 with
  | error e => rfl
  | ok p => exact mapaccess_of_goEq h _

/-- C13, counterexample. The float64 keys +0.0 and -0.0 are `==`, one and the same key for a
Go map, but serialize to "0" and "-0": with 2 shards their shard numbers are 1 and 0, and on
`New(2)` after Set(+0.0, "v"), Get(-0.0) returns (nil, false). -/
theorem C13_counterexample :
    goEq (.float64 (.zero false)) (.float64 (.zero true)) = true ∧
      getShardNumber (.float64 (.zero false)) 2 = .ok 1 ∧
      getShardNumber (.float64 (.zero true)) 2 = .ok 0 ∧
      ∃ m m1 : Map, New 2 = .ok m ∧ m.Set (.float64 (.zero false)) (.str "v") = .ok m1 ∧
        m1.Get (.float64 (.zero true)) = .ok (.null, false) :=
  ⟨rfl, rfl, rfl, _, _, rfl, rfl, rfl⟩

/-- C13, amended. For any two keys k1, k2 that are equal under the key equality of a shard's
mapping (Go's `==`) and every shard count n >= 1, provided n = 1 or the two keys have the
same serialization (which holds of every pair of `==` keys but +0.0 and -0.0):
getShardNumber(k1, n) = getShardNumber(k2, n), and after Set(k1, v) on a map of n shards
reachable from New(n), Get(k2) returns (v, true). -/
theorem C13_equal_keys (n : Int) (hn : 1 ≤ n) (m : Map) (hm : Reachable n m) (k1 k2 : KT)
    (v : VT) (heq : goEq k1 k2 = true) (hser : n = 1 ∨ jsonMarshal k1 = jsonMarshal k2) :
    getShardNumber k1 n = getShardNumber k2 n ∧
    ∃ m1, m.Set k1 v = .ok m1 ∧ m1.Get k2 = .ok (v, true) := by
  have hnum : getShardNumber k1 n = getShardNumber k2 n := by
    rcases hser with h | h
    · subst h
      rw [getShardNumber_one, getShardNumber_one]
    · exact getShardNumber_congr n h
  have h1 : hashable k1 = true := hashable_of_goEq ((goEq_symm k2 k1).trans heq)
  have h11 : goEq k1 k1 = true := goEq_trans heq ((goEq_symm k2 k1).trans heq)
  obtain ⟨i, s, hg⟩ := hm.getShard_exists hn k1
  refine ⟨hnum, _, Set_eq hg h1 v, ?_⟩
  have hlen :
      ((Map.mk (m.shards.set i ⟨assignEntry k1 v s.items⟩)).shards.length : Int) = n := by
    simpa using hm.inv.1
  rw [Get_of_goEq heq (by rw [hlen]; exact hnum), Get_set_self hg]
  simp [mapaccess, h1, find_assignEntry_self h11]

/-- C13, witness: one shard, and the two float64 zeros, which are `==`. -/
theorem C13_witness :
    Reachable 1 ⟨[⟨[]⟩]⟩ ∧ goEq (.float64 (.zero false)) (.float64 (.zero true)) = true ∧
      getShardNumber (.float64 (.zero false)) 1 = getShardNumber (.float64 (.zero true)) 1 ∧
      ∃ m1, (Map.mk [⟨[]⟩]).Set (.float64 (.zero false)) (.str "v") = .ok m1 ∧
        m1.Get (.float64 (.zero true)) = .ok (.str "v", true) :=
  ⟨.new rfl, rfl,
    C13_equal_keys 1 (by decide) _ (.new rfl) (.float64 (.zero false)) (.float64 (.zero true))
      (.str "v") rfl (Or.inl rfl)⟩

/-- C14. For every integer key i with 0 <= i <= 9, serialized as its decimal ASCII digit,
getShardNumber(i, 4) = 3 - (i mod 4). -/
theorem C14_shard_ints (i : Int) (h0 : 0 ≤ i) (h9 : i ≤ 9) :
    jsonMarshal (.int i) = some [0x30 + i.toNat] ∧
    getShardNumber (.int i) 4 = .ok (3 - i % 4) := by
  interval_cases i <;> exact ⟨rfl, rfl⟩

/-- C14, witness: the keys 0, 1, ..., 9 of TestShardInts go to the shards
3, 2, 1, 0, 3, 2, 1, 0, 3, 2 in that order. -/
theorem C14_witness :
    getShardNumber (.int 5) 4 = .ok (3 - 5 % 4) ∧
      (List.range 10).map (fun i => getShardNumber (.int (i : Int)) 4) =
        [.ok 3, .ok 2, .ok 1, .ok 0, .ok 3, .ok 2, .ok 1, .ok 0, .ok 3, .ok 2] :=
  ⟨(C14_shard_ints 5 (by decide) (by decide)).2, rfl⟩

/-! ## The order of delivery, and the buffered iterator -/

/-- Every tuple delivered from index `i` on comes from a shard at `i` or later and carries a
key with that shard number. -/
theorem shard_of_mem_iterFrom {n : Int} {ro : Nat → List (KT × VT) → List (KT × VT)}
    (hro : ∀ i l, (ro i l).Perm l) (l : List shard) (i : Nat)
    (hinv : ∀ j s, l[j]? = some s → shardInv n (i + j) s) {t : Tuple}
    (ht : t ∈ iterFrom ro i l) :
    ∃ j : Nat, getShardNumber t.Key n = .ok ((i + j : Nat) : Int) := by
  obtain ⟨j, s, hj, hmem⟩ := (mem_iterFrom hro l i t).1 ht
  have h := (hinv j s hj).routed (t.Key, t.Val) hmem
  exact ⟨j, h⟩

theorem pairwise_order_iterFrom {n : Int} {ro : Nat → List (KT × VT) → List (KT × VT)}
    (hro : ∀ i l, (ro i l).Perm l) (l : List shard) (i : Nat)
    (hinv : ∀ j s, l[j]? = some s → shardInv n (i + j) s) :
    (iterFrom ro i l).Pairwise fun t1 t2 =>
      ∃ a b : Nat, getShardNumber t1.Key n = .ok (a : Int) ∧
        getShardNumber t2.Key n = .ok (b : Int) ∧ a ≤ b := by
  induction l generalizing i with
  | nil => simp [iterFrom]
  | cons s l ih =>
    have hs := hinv 0 s (by simp)
    have hrest : ∀ j s1, l[j]? = some s1 → shardInv n (i + 1 + j) s1 := by
      intro j s1 hj
      have := hinv (j + 1) s1 (by simpa using hj)
      rwa [show i + (j + 1) = i + 1 + j by omega] at this
    have hhead : ∀ t ∈ (ro i s.items).map (fun e => Tuple.mk e.1 e.2),
        getShardNumber t.Key n = .ok (i : Int) := by
      intro t ht
      obtain ⟨e, he, rfl⟩ := List.mem_map.1 ht
      simpa using hs.routed e ((hro i s.items).subset he)
    simp only [iterFrom]
    refine List.pairwise_append.2 ⟨?_, ih (i + 1) hrest, ?_⟩
    · exact List.pairwise_of_forall_mem_list fun a ha b hb =>
        ⟨i, i, hhead a ha, hhead b hb, le_refl i⟩
    · intro a ha b hb
      obtain ⟨j, hj⟩ := shard_of_mem_iterFrom hro l (i + 1) hrest hb
      exact ⟨i, i + 1 + j, hhead a ha, hj, by omega⟩

/-- Each shard of the map of TestIter holds one entry, so whatever order `range` takes, the
keys come out as name2, name1, name4, name3. -/
theorem iterTestMap_Iter (ro : Nat → List (KT × VT) → List (KT × VT))
    (hro : ∀ i l, (ro i l).Perm l) :
    iterTestMap.Iter ro =
      [⟨.str "name2", .str "simon2"⟩, ⟨.str "name1", .str "simon1"⟩,
        ⟨.str "name4", .str "simon4"⟩, ⟨.str "name3", .str "simon3"⟩] := by
  simp [Map.Iter, iterTestMap, iterFrom, List.perm_singleton.1 (hro _ _)]

/-- C15. For every shard count n >= 1 and every map reachable from New(n), with no concurrent
mutation, whatever order `range` visits the entries of each shard in: Iter delivers shard by
shard in increasing shard index, i.e. if Tuple t1 is delivered before Tuple t2 then
getShardNumber(t1.Key, n) <= getShardNumber(t2.Key, n). -/
theorem C15_iter_order (n : Int) (_hn : 1 ≤ n) (m : Map) (hm : Reachable n m)
    (rangeOrder : Nat → List (KT × VT) → List (KT × VT))
    (hro : ∀ i l, (rangeOrder i l).Perm l) :
    (m.Iter rangeOrder).Pairwise fun t1 t2 =>
      ∃ a b : Nat, getShardNumber t1.Key n = .ok (a : Int) ∧
        getShardNumber t2.Key n = .ok (b : Int) ∧ a ≤ b :=
  pairwise_order_iterFrom hro m.shards 0 fun j s hj => by simpa using hm.inv.2 j s hj

/-- C15, witness: on `New(4)` after Set of name1 .. name4 the delivered keys are name2,
name1, name4, name3 in that order, in whatever order `range` takes, each key being alone in
its shard, and they have the shard numbers 0, 1, 2, 3. -/
theorem C15_witness :
    Reachable 4 iterTestMap ∧
      (∀ ro : Nat → List (KT × VT) → List (KT × VT), (∀ i l, (ro i l).Perm l) →
        iterTestMap.Iter ro =
          [⟨.str "name2", .str "simon2"⟩, ⟨.str "name1", .str "simon1"⟩,
            ⟨.str "name4", .str "simon4"⟩, ⟨.str "name3", .str "simon3"⟩]) ∧
      [Iface.str "name2", .str "name1", .str "name4", .str "name3"].map
          (fun k => getShardNumber k 4) = [.ok 0, .ok 1, .ok 2, .ok 3] ∧
      (iterTestMap.Iter fun _ l => l).Pairwise fun t1 t2 =>
        ∃ a b : Nat, getShardNumber t1.Key 4 = .ok (a : Int) ∧
          getShardNumber t2.Key 4 = .ok (b : Int) ∧ a ≤ b :=
  ⟨iterTestMap_reachable, iterTestMap_Iter, rfl,
    C15_iter_order 4 (by decide) _ iterTestMap_reachable (fun _ l => l)
      (fun _ _ => List.Perm.refl _)⟩

/-- C16. For every shard count n >= 1 and every map reachable from New(n), with no concurrent
mutation: the channel IterBuffered returns has capacity Count() as of the call, the tuples
sent on it before it is closed are those Iter sends (given the same order of `range` in each
shard), their number is the capacity, and so the producer places every one of them without
a receiver. -/
theorem C16_iterBuffered (n : Int) (_hn : 1 ≤ n) (m : Map) (_hm : Reachable n m)
    (rangeOrder : Nat → List (KT × VT) → List (KT × VT))
    (hro : ∀ i l, (rangeOrder i l).Perm l) :
    (m.IterBuffered rangeOrder).1 = m.Count ∧
    (m.IterBuffered rangeOrder).2 = m.Iter rangeOrder ∧
    (m.IterBuffered rangeOrder).2.length ≤ (m.IterBuffered rangeOrder).1 ∧
    placedWithoutReceiver (m.IterBuffered rangeOrder).1 (m.IterBuffered rangeOrder).2 =
      (m.IterBuffered rangeOrder).2 := by
  have hlen : (m.IterBuffered rangeOrder).2.length = (m.IterBuffered rangeOrder).1 := by
    simp only [Map.IterBuffered, length_iterFrom hro, Count_eq_sum]
  refine ⟨rfl, rfl, le_of_eq hlen, ?_⟩
  rw [placedWithoutReceiver, ← hlen, List.take_length]

/-- C16, witness: the map of TestIter; the channel has capacity 4 and gets four tuples. -/
theorem C16_witness :
    Reachable 4 iterTestMap ∧ (iterTestMap.IterBuffered fun _ l => l).1 = 4 ∧
      (iterTestMap.IterBuffered fun _ l => l).2 = iterTestMap.Iter (fun _ l => l) ∧
      (iterTestMap.IterBuffered fun _ l => l).2.length ≤ 4 := by
  obtain ⟨h1, h2, h3, _⟩ := C16_iterBuffered 4 (by decide) _ iterTestMap_reachable
    (fun _ l => l) (fun _ _ => List.Perm.refl _)
  exact ⟨iterTestMap_reachable, h1, h2, h3⟩

/-! ## One shard or many -/

theorem Get_Set_same {n : Int} {m m1 : Map} (hm : Reachable n m) {k k1 : KT}
    (heq : goEq k1 k = true) (hnum : getShardNumber k1 n = getShardNumber k n) {v : VT}
    (hs : m.Set k1 v = .ok m1) : m1.Get k = .ok (v, true) := by
  obtain ⟨i, s, hg, h1, rfl⟩ := Set_ok hs
  have h11 : goEq k1 k1 = true := goEq_trans heq ((goEq_symm k k1).trans heq)
  have hlen : ((Map.mk (m.shards.set i ⟨assignEntry k1 v s.items⟩)).shards.length : Int) = n := by
    simpa using hm.inv.1
  rw [Get_of_goEq heq (by rw [hlen]; exact hnum), Get_set_self hg]
  simp [mapaccess, h1, find_assignEntry_self h11]

theorem Get_Remove_same {n : Int} {m m1 : Map} (hm : Reachable n m) {k k1 : KT}
    (heq : goEq k1 k = true) (hnum : getShardNumber k1 n = getShardNumber k n)
    (hs : m.Remove k1 = .ok m1) : m1.Get k = .ok (.null, false) := by
  obtain ⟨i, s, hg, h1, rfl⟩ := Remove_ok hs
  have hlen : ((Map.mk (m.shards.set i ⟨s.items.eraseP fun e => goEq e.1 k1⟩)).shards.length
      : Int) = n := by
    simpa using hm.inv.1
  rw [Get_of_goEq heq (by rw [hlen]; exact hnum), Get_set_self hg]
  have hd := (hm.inv.2 i s (getShard_ok hg).2).distinct
  simp [mapaccess, h1, find_eraseP_self hd]

/-- On a reachable map with at least one shard, Has of a hashable key returns. -/
theorem Has_returns {n : Int} {m : Map} (hm : Reachable n m) (hn : 1 ≤ n) {k : KT}
    (hk : hashable k = true) : ∃ b, m.Has k = .ok b := by
  obtain ⟨i, s, hg⟩ := hm.getShard_exists hn k
  exact ⟨_, Has_eq hg hk⟩

/-- On a reachable map with at least one shard, a key Go cannot hash makes Get, Set and
Remove panic. -/
theorem unhashable_panics {n : Int} {m : Map} (hm : Reachable n m) (hn : 1 ≤ n) {k : KT}
    (hk : hashable k = false) (v : VT) :
    m.Get k = .error .unhashableKey ∧ m.Set k v = .error .unhashableKey ∧
      m.Remove k = .error .unhashableKey := by
  obtain ⟨i, s, hg⟩ := hm.getShard_exists hn k
  simp [Map.Get, Map.Set, Map.Remove, hg, mapaccess, mapassign, mapdelete, hk]

theorem Get_New {n : Int} (hn : 1 ≤ n) {m : Map} (h : New n = .ok m) (k : KT) :
    m.Get k = mapaccess [] k := by
  obtain ⟨i, s, hg⟩ := (Reachable.new h).getShard_exists hn k
  rw [Get_eq hg]
  have hs := (getShard_ok hg).2
  unfold New at h
  split at h
  · simp at h
  · simp only [Except.ok.injEq] at h
    subst h
    simp only [List.getElem?_replicate] at hs
    split at hs
    · simp only [Option.some.injEq] at hs
      subst hs
      rfl
    · simp at hs

theorem routedAlike_one (keys : List KT) (k : KT) : routedAlike 1 keys k := by
  intro a _ _
  rw [getShardNumber_one, getShardNumber_one]

/-- Set of a key of the list keeps the two maps showing the same, or panics on both. -/
theorem SameView.set {n : Int} {keys : List KT} {mn m1 : Map} (hn : 1 ≤ n)
    (hK : ∀ a ∈ keys, routedAlike n keys a) (h : SameView n keys mn m1) {k1 : KT}
    (hk1 : k1 ∈ keys) (v : VT) :
    (∃ mn2 m12, mn.Set k1 v = .ok mn2 ∧ m1.Set k1 v = .ok m12 ∧ SameView n keys mn2 m12) ∨
    (∃ e, mn.Set k1 v = .error e ∧ m1.Set k1 v = .error e) := by
  cases hh : hashable k1 with
  | false =>
    exact Or.inr ⟨_, (unhashable_panics h.reachN hn hh v).2.1,
      (unhashable_panics h.reach1 (le_refl 1) hh v).2.1⟩
  | true =>
    obtain ⟨mn2, hsn, hcn1, hcn2⟩ := Set_Count h.reachN hn hh v
    obtain ⟨m12, hs1, hc11, hc12⟩ := Set_Count h.reach1 (le_refl 1) hh v
    have hhas : mn.Has k1 = m1.Has k1 := Has_congr (h.get k1 (hK k1 hk1))
    obtain ⟨b, hb⟩ := Has_returns h.reachN hn hh
    refine Or.inl ⟨mn2, m12, hsn, hs1, .set k1 v h.reachN hsn, .set k1 v h.reach1 hs1, ?_, ?_⟩
    · have hb1 : m1.Has k1 = .ok b := hhas ▸ hb
      cases b with
      | true => rw [hcn1 hb, hc11 hb1, h.count]
      | false => rw [hcn2 hb, hc12 hb1, h.count]
    · intro k hk
      cases hg : goEq k1 k with
      | true =>
        rw [Get_Set_same h.reachN hg (hk k1 hk1 hg) hsn,
          Get_Set_same h.reach1 hg (routedAlike_one keys k k1 hk1 hg) hs1]
      | false =>
        rw [Get_Set_other h.reachN hn hg hsn, Get_Set_other h.reach1 (le_refl 1) hg hs1]
        exact h.get k hk

/-- Remove of a key of the list keeps the two maps showing the same, or panics on both. -/
theorem SameView.remove {n : Int} {keys : List KT} {mn m1 : Map} (hn : 1 ≤ n)
    (hK : ∀ a ∈ keys, routedAlike n keys a) (h : SameView n keys mn m1) {k1 : KT}
    (hk1 : k1 ∈ keys) :
    (∃ mn2 m12, mn.Remove k1 = .ok mn2 ∧ m1.Remove k1 = .ok m12 ∧ SameView n keys mn2 m12) ∨
    (∃ e, mn.Remove k1 = .error e ∧ m1.Remove k1 = .error e) := by
  cases hh : hashable k1 with
  | false =>
    exact Or.inr ⟨_, (unhashable_panics h.reachN hn hh .null).2.2,
      (unhashable_panics h.reach1 (le_refl 1) hh .null).2.2⟩
  | true =>
    obtain ⟨mn2, hsn, hcn1, hcn2⟩ := Remove_Count h.reachN hn hh
    obtain ⟨m12, hs1, hc11, hc12⟩ := Remove_Count h.reach1 (le_refl 1) hh
    have hhas : mn.Has k1 = m1.Has k1 := Has_congr (h.get k1 (hK k1 hk1))
    obtain ⟨b, hb⟩ := Has_returns h.reachN hn hh
    refine Or.inl ⟨mn2, m12, hsn, hs1, .remove k1 h.reachN hsn, .remove k1 h.reach1 hs1, ?_, ?_⟩
    · have hb1 : m1.Has k1 = .ok b := hhas ▸ hb
      have hcount := h.count
      cases b with
      | true =>
        have a1 := hcn1 hb
        have a2 := hc11 hb1
        omega
      | false => rw [hcn2 hb, hc12 hb1, h.count]
    · intro k hk
      cases hg : goEq k1 k with
      | true =>
        rw [Get_Remove_same h.reachN hg (hk k1 hk1 hg) hsn,
          Get_Remove_same h.reach1 hg (routedAlike_one keys k k1 hk1 hg) hs1]
      | false =>
        rw [Get_Remove_other h.reachN hn hg hsn, Get_Remove_other h.reach1 (le_refl 1) hg hs1]
        exact h.get k hk

/-- Any call with a key of the list keeps the two maps showing the same, or panics on both. -/
theorem SameView.apply {n : Int} {keys : List KT} {mn m1 : Map} (hn : 1 ≤ n)
    (hK : ∀ a ∈ keys, routedAlike n keys a) (h : SameView n keys mn m1) (op : Op)
    (hop : op.key ∈ keys) :
    (∃ mn2 m12, mn.apply op = .ok mn2 ∧ m1.apply op = .ok m12 ∧ SameView n keys mn2 m12) ∨
    (∃ e, mn.apply op = .error e ∧ m1.apply op = .error e) := by
  cases op with
  | set k1 v => exact h.set hn hK hop v
  | remove k1 => exact h.remove hn hK hop
  | update k1 fn =>
    simp only [Map.apply, Update_eq_Set]
    have hget : mn.Get k1 = m1.Get k1 := h.get k1 (hK k1 hop)
    rw [hget]
    cases hg : m1.Get k1 with
    | error e => exact Or.inr ⟨e, rfl, rfl⟩
    | ok r => exact h.set hn hK hop (fn r.1)

/-- A run of calls with keys of the list keeps the two maps showing the same, or panics on
both. -/
theorem SameView.run {n : Int} {keys : List KT} (hn : 1 ≤ n)
    (hK : ∀ a ∈ keys, routedAlike n keys a) (ops : List Op) :
    ∀ mn m1 : Map, SameView n keys mn m1 → (∀ op ∈ ops, op.key ∈ keys) →
      (∃ mn2 m12, runOps mn ops = .ok mn2 ∧ runOps m1 ops = .ok m12 ∧
        SameView n keys mn2 m12) ∨
      (∃ e, runOps mn ops = .error e ∧ runOps m1 ops = .error e) := by
  induction ops with
  | nil => intro mn m1 h _; exact Or.inl ⟨mn, m1, rfl, rfl, h⟩
  | cons op rest ih =>
    intro mn m1 h hops
    rcases h.apply hn hK op (hops op (List.mem_cons_self _ _)) with
      ⟨mn2, m12, hn2, h12, hv⟩ | ⟨e, hen, he1⟩
    · simp only [runOps, hn2, h12]
      exact ih mn2 m12 hv fun o ho => hops o (List.mem_cons_of_mem _ ho)
    · exact Or.inr ⟨e, by simp [runOps, hen], by simp [runOps, he1]⟩

/-- A key that is `==` only to itself is routed like the keys of any list. -/
theorem routedAlike_of_eq {n : Int} {keys : List KT} {k : KT}
    (h : ∀ a ∈ keys, goEq a k = true → a = k) : routedAlike n keys k := by
  intro a ha hg
  rw [h a ha hg]

/-- C17, counterexample. The calls Set(+0.0, "a"), Set(-0.0, "b"): after `New(2)` the two
zeros, one key under `==`, land in different shards, Count() is 2 and Get(+0.0) returns
("a", true); after `New(1)` Count() is 1 and Get(+0.0) returns ("b", true). -/
theorem C17_counterexample :
    ∃ m2 m1 : Map,
      newAndRun 2 [.set (.float64 (.zero false)) (.str "a"),
        .set (.float64 (.zero true)) (.str "b")] = .ok m2 ∧
      newAndRun 1 [.set (.float64 (.zero false)) (.str "a"),
        .set (.float64 (.zero true)) (.str "b")] = .ok m1 ∧
      m2.Count = 2 ∧ m1.Count = 1 ∧
      m2.Get (.float64 (.zero false)) = .ok (.str "a", true) ∧
      m1.Get (.float64 (.zero false)) = .ok (.str "b", true) :=
  ⟨_, _, rfl, rfl, rfl, rfl, rfl, rfl⟩

/-- C17, amended. For every n >= 1 and every finite sequence of Set, Remove and Update calls
in which any two keys that are `==` have the same shard number among n shards (true of every
sequence in which +0.0 and -0.0 do not both occur): applying the sequence to New(n) and to
New(1) either panics in both with the same panic, or returns in both, and then Count() and
IsEmpty() are the same, and Get(k) and Has(k) are the same for every key k that has the
shard number of every key of the sequence it is `==` to. -/
theorem C17_shard_count (n : Int) (hn : 1 ≤ n) (ops : List Op)
    (hroute : ∀ a ∈ ops.map Op.key, routedAlike n (ops.map Op.key) a) :
    (∃ mn m1 : Map, newAndRun n ops = .ok mn ∧ newAndRun 1 ops = .ok m1 ∧
      mn.Count = m1.Count ∧ mn.IsEmpty = m1.IsEmpty ∧
      ∀ k, routedAlike n (ops.map Op.key) k → mn.Get k = m1.Get k ∧ mn.Has k = m1.Has k) ∨
    (∃ e, newAndRun n ops = .error e ∧ newAndRun 1 ops = .error e) := by
  have hnewn : New n = .ok ⟨List.replicate n.toNat ⟨[]⟩⟩ := by
    have : ¬ n < 0 := by omega
    simp [New, this]
  have hnew1 : New 1 = .ok ⟨List.replicate (1 : Int).toNat ⟨[]⟩⟩ := rfl
  have hstart : SameView n (ops.map Op.key) ⟨List.replicate n.toNat ⟨[]⟩⟩
      ⟨List.replicate (1 : Int).toNat ⟨[]⟩⟩ :=
    ⟨.new hnewn, .new hnew1, by rw [Count_New hnewn, Count_New hnew1],
      fun k _ => by rw [Get_New hn hnewn, Get_New (le_refl 1) hnew1]⟩
  rcases SameView.run hn hroute ops _ _ hstart (fun op hop => List.mem_map_of_mem _ hop) with
    ⟨mn, m1, hrn, hr1, hv⟩ | ⟨e, hen, he1⟩
  · refine Or.inl ⟨mn, m1, by simp only [newAndRun, hnewn, hrn],
      by simp only [newAndRun, hnew1, hr1], hv.count, by simp only [Map.IsEmpty, hv.count],
      fun k hk => ⟨hv.get k hk, Has_congr (hv.get k hk)⟩⟩
  · exact Or.inr ⟨e, by simp only [newAndRun, hnewn, hen], by simp only [newAndRun, hnew1, he1]⟩

/-- C17, witness: 4 shards and the calls Set("name1", "simon1"), Set("name2", "simon2"),
Update("name1", to "bob1"), Remove("name2"); both maps end with Count() 1 and "name1" at
"bob1". -/
theorem C17_witness :
    ∃ mn m1 : Map,
      newAndRun 4 [.set (.str "name1") (.str "simon1"), .set (.str "name2") (.str "simon2"),
        .update (.str "name1") (fun _ => .str "bob1"), .remove (.str "name2")] = .ok mn ∧
      newAndRun 1 [.set (.str "name1") (.str "simon1"), .set (.str "name2") (.str "simon2"),
        .update (.str "name1") (fun _ => .str "bob1"), .remove (.str "name2")] = .ok m1 ∧
      mn.Count = m1.Count ∧ mn.Get (.str "name1") = m1.Get (.str "name1") ∧
      m1.Count = 1 ∧ m1.Get (.str "name1") = .ok (.str "bob1", true) := by
  have hstr : ∀ (s : String) (keys : List KT), routedAlike 4 keys (.str s) := fun s keys =>
    routedAlike_of_eq fun a _ hg => (goEq_str_iff s a).1 hg
  rcases C17_shard_count 4 (by decide)
    [.set (.str "name1") (.str "simon1"), .set (.str "name2") (.str "simon2"),
      .update (.str "name1") (fun _ => .str "bob1"), .remove (.str "name2")]
    (by
      intro a ha
      simp only [List.map_cons, List.map_nil, Op.key, List.mem_cons, List.mem_singleton,
        List.not_mem_nil, or_false] at ha
      rcases ha with rfl | rfl | rfl | rfl <;> exact hstr _ _) with
    ⟨mn, m1, hn, h1, hc, _, hg⟩ | ⟨e, hen, _⟩
  · have h1r : newAndRun 1 [.set (.str "name1") (.str "simon1"),
        .set (.str "name2") (.str "simon2"), .update (.str "name1") (fun _ => .str "bob1"),
        .remove (.str "name2")] = .ok ⟨[⟨[(.str "name1", .str "bob1")]⟩]⟩ := rfl
    rw [h1r] at h1
    cases h1
    exact ⟨mn, _, hn, rfl, hc, (hg _ (hstr "name1" _)).1, rfl, rfl⟩
  · have : newAndRun 4 [.set (.str "name1") (.str "simon1"),
        .set (.str "name2") (.str "simon2"), .update (.str "name1") (fun _ => .str "bob1"),
        .remove (.str "name2")] =
          .ok ⟨[⟨[]⟩, ⟨[(.str "name1", .str "bob1")]⟩, ⟨[]⟩, ⟨[]⟩]⟩ := rfl
    rw [this] at hen
    cases hen

/-! ## Updating every delivered key -/

/-- Every key stored in a reachable map is one Go can hash. -/
theorem Reachable.hashable_keys {n : Int} {m : Map} (h : Reachable n m) :
    ∀ s ∈ m.shards, ∀ e ∈ s.items, hashable e.1 = true := by
  have hset : ∀ {m : Map} {k : KT} {i : Nat} {s : shard} {items : List (KT × VT)},
      (∀ s ∈ m.shards, ∀ e ∈ s.items, hashable e.1 = true) → m.getShard k = .ok (i, s) →
      hashable k = true → (∀ e ∈ items, e ∈ s.items ∨ e.1 = k) →
      ∀ t ∈ m.shards.set i ⟨items⟩, ∀ e ∈ t.items, hashable e.1 = true := by
    intro m k i s items ih hg hk hitems t ht e he
    rcases List.mem_or_eq_of_mem_set ht with ht | ht
    · exact ih t ht e he
    · subst ht
      rcases hitems e he with h1 | h1
      · exact ih s (List.getElem?_mem (getShard_ok hg).2) e h1
      · rw [h1]; exact hk
  induction h with
  | new h =>
    intro s hs e he
    unfold New at h
    split at h
    · simp at h
    · simp only [Except.ok.injEq] at h
      subst h
      rw [List.eq_of_mem_replicate hs] at he
      simp at he
  | set k v _ hs ih =>
    obtain ⟨i, s, hg, hk, rfl⟩ := Set_ok hs
    exact hset ih hg hk fun e he => by
      rcases mem_assignEntry he with h | h
      · exact Or.inr (by rw [h])
      · exact Or.inl h
  | remove k _ hs ih =>
    obtain ⟨i, s, hg, hk, rfl⟩ := Remove_ok hs
    exact hset ih hg hk fun e he => Or.inl ((List.eraseP_sublist _).subset he)
  | update k fn _ hs ih =>
    obtain ⟨old, b, _, hs2⟩ := Update_ok hs
    obtain ⟨i, s, hg, hk, rfl⟩ := Set_ok hs2
    exact hset ih hg hk fun e he => by
      rcases mem_assignEntry he with h | h
      · exact Or.inr (by rw [h])
      · exact Or.inl h

/-- On a reachable map with at least one shard, Update of a hashable key returns. -/
theorem Update_returns {n : Int} {m : Map} (hm : Reachable n m) (hn : 1 ≤ n) {k : KT}
    (hk : hashable k = true) (fn : VT → VT) : ∃ m1, m.Update k fn = .ok m1 := by
  obtain ⟨i, s, hg⟩ := hm.getShard_exists hn k
  rw [Update_eq_Set, Get_eq hg]
  simp only [mapaccess, hk, if_true]
  cases s.items.find? fun e => goEq e.1 k with
  | none => exact ⟨_, Set_eq hg hk _⟩
  | some e => exact ⟨_, Set_eq hg hk _⟩

/-- A write to the shard of `k1` leaves Get of a key with another shard number alone. -/
theorem Get_set_other_shard {m : Map} {k k1 : KT} {i : Nat} {s : shard}
    (h1 : 1 ≤ m.shards.length) (hg : m.getShard k1 = .ok (i, s))
    (hne : getShardNumber k1 m.shards.length ≠ getShardNumber k m.shards.length)
    (items : List (KT × VT)) :
    (Map.mk (m.shards.set i ⟨items⟩)).Get k = m.Get k := by
  obtain ⟨i2, s2, hg2⟩ := getShard_total m k h1
  rw [Get_eq (getShard_set hg2 (index_lt_of_getShard hg)), Get_eq hg2]
  split
  · rename_i hii
    subst hii
    exact absurd ((getShard_ok hg).1.trans (getShard_ok hg2).1.symm) hne
  · rfl

theorem Get_Update_untouched {n : Int} {m m1 : Map} (hm : Reachable n m) (hn : 1 ≤ n)
    {k k1 : KT} (hne : ¬ touches n k1 k) {fn : VT → VT} (hs : m.Update k1 fn = .ok m1) :
    m1.Get k = m.Get k := by
  cases hg : goEq k1 k with
  | false => exact Get_Update_other hm hn hg hs
  | true =>
    have hnum : getShardNumber k1 n ≠ getShardNumber k n := fun h => hne ⟨hg, h⟩
    obtain ⟨old, b, _, hset⟩ := Update_ok hs
    obtain ⟨i, s, hgs, _, rfl⟩ := Set_ok hset
    have hlen := hm.inv.1
    exact Get_set_other_shard (by omega) hgs (by rw [hlen]; exact hnum) _

theorem Get_Update_touched {n : Int} {m m1 : Map} (hm : Reachable n m) {k k1 : KT}
    (ht : touches n k1 k) {fn : VT → VT} {old : VT} {b : Bool} (hget : m.Get k = .ok (old, b))
    (hs : m.Update k1 fn = .ok m1) : m1.Get k = .ok (fn old, true) := by
  obtain ⟨old1, b1, hg1, hset⟩ := Update_ok hs
  have hlen := hm.inv.1
  have : m.Get k = m.Get k1 := Get_of_goEq ht.1 (by rw [hlen]; exact ht.2)
  rw [this, hg1] at hget
  simp only [Except.ok.injEq, Prod.mk.injEq] at hget
  rw [← hget.1]
  exact Get_Set_same hm ht.1 ht.2 hset

theorem updateAll_append (m : Map) (fn : VT → VT) (l1 l2 : List Tuple) :
    updateAll m fn (l1 ++ l2) =
      match updateAll m fn l1 with
      | .error e => .error e
      | .ok m1 => updateAll m1 fn l2 := by
  induction l1 generalizing m with
  | nil => rfl
  | cons t l1 ih =>
    simp only [List.cons_append, updateAll]
    cases m.Update t.Key fn with
    | error e => rfl
    | ok m1 => exact ih m1

/-- A run of updates under hashable keys returns, and the map it leaves is reachable. -/
theorem updateAll_returns {n : Int} (hn : 1 ≤ n) (fn : VT → VT) (ts : List Tuple) :
    ∀ m : Map, Reachable n m → (∀ t ∈ ts, hashable t.Key = true) →
      ∃ m1, updateAll m fn ts = .ok m1 ∧ Reachable n m1 := by
  induction ts with
  | nil => intro m hm _; exact ⟨m, rfl, hm⟩
  | cons t ts ih =>
    intro m hm hh
    obtain ⟨m1, h1⟩ := Update_returns hm hn (hh t (List.mem_cons_self _ _)) fn
    obtain ⟨m2, h2, hr⟩ := ih m1 (.update t.Key fn hm h1)
      fun x hx => hh x (List.mem_cons_of_mem _ hx)
    exact ⟨m2, by simp only [updateAll, h1, h2], hr⟩

/-- A run of updates none of which touches `k` leaves Get of `k` alone. -/
theorem updateAll_untouched {n : Int} (hn : 1 ≤ n) (fn : VT → VT) (k : KT) (ts : List Tuple) :
    ∀ m m1 : Map, Reachable n m → updateAll m fn ts = .ok m1 →
      (∀ t ∈ ts, ¬ touches n t.Key k) → m1.Get k = m.Get k := by
  induction ts with
  | nil =>
    intro m m1 _ h _
    simp only [updateAll, Except.ok.injEq] at h
    rw [h]
  | cons t ts ih =>
    intro m m1 hm h hno
    simp only [updateAll] at h
    cases hu : m.Update t.Key fn with
    | error e => simp [hu] at h
    | ok m2 =>
      simp only [hu] at h
      rw [ih m2 m1 (.update t.Key fn hm hu) h fun x hx => hno x (List.mem_cons_of_mem _ hx)]
      exact Get_Update_untouched hm hn (hno t (List.mem_cons_self _ _)) hu

/-- An update under one delivered key never touches a key delivered later. -/
theorem pairwise_untouched_iterFrom {n : Int} {ro : Nat → List (KT × VT) → List (KT × VT)}
    (hro : ∀ i l, (ro i l).Perm l) (l : List shard) (i : Nat)
    (hinv : ∀ j s, l[j]? = some s → shardInv n (i + j) s) :
    (iterFrom ro i l).Pairwise fun a b => ¬ touches n a.Key b.Key := by
  induction l generalizing i with
  | nil => simp [iterFrom]
  | cons s l ih =>
    have hs := hinv 0 s (by simp)
    have hrest : ∀ j s1, l[j]? = some s1 → shardInv n (i + 1 + j) s1 := by
      intro j s1 hj
      have := hinv (j + 1) s1 (by simpa using hj)
      rwa [show i + (j + 1) = i + 1 + j by omega] at this
    simp only [iterFrom]
    refine List.pairwise_append.2 ⟨?_, ih (i + 1) hrest, ?_⟩
    · have hd : distinctKeys (ro i s.items) :=
        ((hro i s.items).pairwise_iff (fun {a b} h => by rw [goEq_symm]; exact h)).2
          hs.distinct
      refine (List.pairwise_map.2 ?_)
      exact hd.imp (fun {a b} h ht => by have h1 := ht.1; simp only at h1; simp [h] at h1)
    · intro a ha b hb ht
      obtain ⟨e, he, rfl⟩ := List.mem_map.1 ha
      obtain ⟨j, hj⟩ := shard_of_mem_iterFrom hro l (i + 1) hrest hb
      have h1 := hs.routed e ((hro i s.items).subset he)
      have h2 := ht.2
      simp only at h2
      rw [h1, hj] at h2
      simp only [Nat.add_zero, Except.ok.injEq, Nat.cast_inj] at h2
      omega

/-- A delivered tuple whose key is `==` to itself is what Get of that key returns. -/
theorem Get_of_mem_Iter {n : Int} {m : Map} (hm : Reachable n m)
    {ro : Nat → List (KT × VT) → List (KT × VT)} (hro : ∀ i l, (ro i l).Perm l) {k : KT}
    {v : VT} (hkk : goEq k k = true) (hmem : Tuple.mk k v ∈ m.Iter ro) :
    m.Get k = .ok (v, true) := by
  have hinv := hm.inv
  obtain ⟨j, s, hj, hin⟩ := (mem_iterFrom hro m.shards 0 _).1 hmem
  have hs := hinv.2 j s hj
  have hnum := hs.routed _ hin
  simp only at hnum hin
  rw [← hinv.1] at hnum
  rw [Get_eq (getShard_of_number hnum hj)]
  simp [mapaccess, hashable_of_goEq hkk, find_of_mem hs.distinct hkk hin]

/-- What Get finds was stored under a key that is delivered and that touches the key asked
for. -/
theorem mem_Iter_of_Get {n : Int} {m : Map} (hm : Reachable n m)
    {ro : Nat → List (KT × VT) → List (KT × VT)} (hro : ∀ i l, (ro i l).Perm l) {k : KT}
    {v : VT} (hget : m.Get k = .ok (v, true)) :
    ∃ k0, touches n k0 k ∧ Tuple.mk k0 v ∈ m.Iter ro := by
  obtain ⟨i, s, hg, hk⟩ := Get_ok hget
  rw [Get_eq hg] at hget
  simp only [mapaccess, hk, if_true] at hget
  cases hf : s.items.find? fun e => goEq e.1 k with
  | none => simp [hf] at hget
  | some e =>
    simp only [hf, Except.ok.injEq, Prod.mk.injEq, and_true] at hget
    have hp : goEq e.1 k = true := by simpa using List.find?_some hf
    have hmem := List.mem_of_find?_eq_some hf
    have hsi := hm.inv.2 i s (getShard_ok hg).2
    have hnum : getShardNumber e.1 n = getShardNumber k n := by
      rw [hsi.routed e hmem, ← hm.inv.1]
      exact (getShard_ok hg).1.symm
    refine ⟨e.1, ⟨hp, hnum⟩, (mem_iterFrom hro m.shards 0 _).2 ⟨i, s, (getShard_ok hg).2, ?_⟩⟩
    simp only
    rw [← hget]
    exact hmem

/-- Update under a key that is present neither adds nor removes a key and keeps Count. -/
theorem Update_present {n : Int} {m m1 : Map} (hm : Reachable n m) (hn : 1 ≤ n) {k1 : KT}
    (hp : m.Has k1 = .ok true) {fn : VT → VT} (hs : m.Update k1 fn = .ok m1) :
    m1.Count = m.Count ∧ ∀ k, m1.Has k = m.Has k := by
  obtain ⟨old, b, hg1, hset⟩ := Update_ok hs
  obtain ⟨_, _, _, hk⟩ := Has_ok hp
  obtain ⟨m2, hset2, hc, _⟩ := Set_Count hm hn hk (fn old)
  rw [hset] at hset2
  simp only [Except.ok.injEq] at hset2
  subst hset2
  refine ⟨hc hp, fun k => ?_⟩
  by_cases ht : touches n k1 k
  · have hlen := hm.inv.1
    have hgk : m.Get k = m.Get k1 := Get_of_goEq ht.1 (by rw [hlen]; exact ht.2)
    have hhk : m.Has k = m.Has k1 := by simp only [Map.Has, hgk]
    rw [hhk, hp]
    have := Get_Set_same hm ht.1 ht.2 hset
    simp [Map.Has, this]
  · exact Has_congr (Get_Update_untouched hm hn ht hs)

/-- A run of updates under keys that are all present neither adds nor removes a key and
keeps Count. -/
theorem updateAll_present {n : Int} (hn : 1 ≤ n) (fn : VT → VT) (ts : List Tuple) :
    ∀ m m1 : Map, Reachable n m → updateAll m fn ts = .ok m1 →
      (∀ t ∈ ts, m.Has t.Key = .ok true) → m1.Count = m.Count ∧ ∀ k, m1.Has k = m.Has k := by
  induction ts with
  | nil =>
    intro m m1 _ h _
    simp only [updateAll, Except.ok.injEq] at h
    rw [h]
    exact ⟨rfl, fun _ => rfl⟩
  | cons t ts ih =>
    intro m m1 hm h hp
    simp only [updateAll] at h
    cases hu : m.Update t.Key fn with
    | error e => simp [hu] at h
    | ok m2 =>
      simp only [hu] at h
      obtain ⟨hc, hh⟩ := Update_present hm hn (hp t (List.mem_cons_self _ _)) hu
      obtain ⟨hc2, hh2⟩ := ih m2 m1 (.update t.Key fn hm hu) h fun x hx => by
        rw [hh]; exact hp x (List.mem_cons_of_mem _ hx)
      exact ⟨hc2.trans hc, fun k => (hh2 k).trans (hh k)⟩

/-- C18, counterexample. On `New(4)` after Set(NaN, 1), Iter delivers the one tuple (NaN, 1);
Update under its key finds no entry `==` to NaN and stores a second one: a key has been
added and Count() goes from 1 to 2. -/
theorem C18_counterexample :
    ∃ m m1 m2 : Map, New 4 = .ok m ∧ m.Set (.float64 .nan) (.int 1) = .ok m1 ∧
      m1.Iter (fun _ l => l) = [⟨.float64 .nan, .int 1⟩] ∧
      updateAll m1 (fun _ => .str "george") (m1.Iter fun _ l => l) = .ok m2 ∧
      m1.Count = 1 ∧ m2.Count = 2 :=
  ⟨_, _, _, rfl, rfl, rfl, rfl, rfl, rfl⟩

/-- C18, amended. For every shard count n >= 1, every map reachable from New(n) and every
function fn, whatever order `range` visits the entries of each shard in: taking the sequence
of Tuples Iter delivers and calling Update(t.Key, fn) once for each Tuple t in delivery
order, with no other mutation, returns every time and yields a map in which every key k that
had Get(k) = (v, true) beforehand now has Get(k) = (fn(v), true); and if every delivered key
is `==` to itself (no stored key is NaN), no key has been added or removed (Has(k) is as
before for every k) and Count() is unchanged. -/
theorem C18_update_each (n : Int) (hn : 1 ≤ n) (m : Map) (hm : Reachable n m) (fn : VT → VT)
    (rangeOrder : Nat → List (KT × VT) → List (KT × VT))
    (hro : ∀ i l, (rangeOrder i l).Perm l) :
    ∃ m1, updateAll m fn (m.Iter rangeOrder) = .ok m1 ∧
      (∀ k v, m.Get k = .ok (v, true) → m1.Get k = .ok (fn v, true)) ∧
      ((∀ t ∈ m.Iter rangeOrder, goEq t.Key t.Key = true) →
        m1.Count = m.Count ∧ ∀ k, m1.Has k = m.Has k) := by
  have hhash : ∀ t ∈ m.Iter rangeOrder, hashable t.Key = true := by
    intro t ht
    obtain ⟨j, s, hj, hmem⟩ := (mem_iterFrom hro m.shards 0 t).1 ht
    exact hm.hashable_keys s (List.getElem?_mem hj) _ hmem
  obtain ⟨m1, hrun, _⟩ := updateAll_returns hn fn _ m hm hhash
  refine ⟨m1, hrun, ?_, ?_⟩
  · intro k v hget
    obtain ⟨k0, ht, hmem⟩ := mem_Iter_of_Get hm hro hget
    obtain ⟨l1, l2, hsplit⟩ := List.append_of_mem hmem
    have hpw : (m.Iter rangeOrder).Pairwise fun a b => ¬ touches n a.Key b.Key :=
      pairwise_untouched_iterFrom hro m.shards 0 fun j s hj => by simpa using hm.inv.2 j s hj
    rw [hsplit] at hpw hrun hhash
    obtain ⟨_, hp2, hcross⟩ := List.pairwise_append.1 hpw
    have hafter := (List.pairwise_cons.1 hp2).1
    obtain ⟨ma, hma, hra⟩ := updateAll_returns hn fn l1 m hm
      fun t ht => hhash t (List.mem_append_left _ ht)
    rw [updateAll_append, hma] at hrun
    simp only [updateAll] at hrun
    cases hu : ma.Update k0 fn with
    | error e => simp [hu] at hrun
    | ok mb =>
      simp only [hu] at hrun
      have hga : ma.Get k = .ok (v, true) := by
        rw [updateAll_untouched hn fn k l1 m ma hm hma fun x hx hxk =>
          hcross x hx _ (List.mem_cons_self _ _)
            ⟨goEq_trans hxk.1 ((goEq_symm k k0).trans ht.1), hxk.2.trans ht.2.symm⟩]
        exact hget
      have hgb : mb.Get k = .ok (fn v, true) := Get_Update_touched hra ht hga hu
      rw [updateAll_untouched hn fn k l2 mb m1 (.update k0 fn hra hu) hrun fun y hy hyk =>
        hafter y hy ⟨goEq_trans ht.1 ((goEq_symm k y.Key).trans hyk.1), ht.2.trans hyk.2.symm⟩]
      exact hgb
  · intro hself
    refine updateAll_present hn fn _ m m1 hm hrun fun t ht => ?_
    have := Get_of_mem_Iter hm hro (hself t ht) (v := t.Val) ht
    simp [Map.Has, this]

/-- C18, witness: the map of TestResetIter and its function; afterwards name1 is at "bob1",
the other three at "george", and Count() is still 4. -/
theorem C18_witness :
    Reachable 4 iterTestMap ∧
      ∃ m1, updateAll iterTestMap resetFn (iterTestMap.Iter fun _ l => l) = .ok m1 ∧
        m1.Get (.str "name1") = .ok (.str "bob1", true) ∧
        m1.Get (.str "name2") = .ok (.str "george", true) ∧
        m1.Get (.str "name3") = .ok (.str "george", true) ∧
        m1.Get (.str "name4") = .ok (.str "george", true) ∧
        m1.Count = 4 := by
  obtain ⟨m1, hrun, hget, hcount⟩ := C18_update_each 4 (by decide) _ iterTestMap_reachable
    resetFn (fun _ l => l) (fun _ _ => List.Perm.refl _)
  refine ⟨iterTestMap_reachable, m1, hrun, hget (.str "name1") (.str "simon1") rfl,
    hget (.str "name2") (.str "simon2") rfl, hget (.str "name3") (.str "simon3") rfl,
    hget (.str "name4") (.str "simon4") rfl, (hcount fun t ht => ?_).1⟩
  simp only [Map.Iter, iterTestMap, iterFrom, List.map_cons, List.map_nil, List.cons_append,
    List.nil_append, List.mem_cons, List.mem_singleton, List.not_mem_nil, or_false] at ht
  rcases ht with rfl | rfl | rfl | rfl <;> rfl

/-! ## The routing invariant and what follows from it -/

theorem Get_of_Has {m : Map} {k : KT} (h : m.Has k = .ok true) :
    ∃ v, m.Get k = .ok (v, true) := by
  unfold Map.Has at h
  cases hg : m.Get k with
  | error e => simp [hg] at h
  | ok r =>
    obtain ⟨v, b⟩ := r
    simp only [hg, Except.ok.injEq] at h
    subst h
    exact ⟨v, rfl⟩

theorem Has_of_Get {m : Map} {k : KT} {v : VT} (h : m.Get k = .ok (v, true)) :
    m.Has k = .ok true := by
  simp [Map.Has, h]

/-- No key is `==` to NaN. -/
theorem goEq_nan (k : KT) : goEq (.float64 .nan) k = false := by
  cases k <;> simp [goEq, F64.eq]

/-- C19, counterexample. (1) On `New(4)` after Set(NaN, 1): Count() is 1 and IsEmpty() is
false, yet Has(k) is true for no key k. (2) On `New(2)` after Set(+0.0, "a") and
Set(-0.0, "b"): the two zeros are `==`, one key for a Go map, yet each of the two shards
stores one of them and Count() is 2. (3) On `New(1)` after Set(+0.0, "a"): Count() is 1, yet
Has is true of +0.0 and of -0.0. -/
theorem C19_counterexample :
    (∃ m m1 : Map, New 4 = .ok m ∧ m.Set (.float64 .nan) (.int 1) = .ok m1 ∧
      m1.Count = 1 ∧ m1.IsEmpty = false ∧ ∀ k, m1.Has k ≠ .ok true) ∧
    (∃ m m1 m2 : Map, New 2 = .ok m ∧ m.Set (.float64 (.zero false)) (.str "a") = .ok m1 ∧
      m1.Set (.float64 (.zero true)) (.str "b") = .ok m2 ∧
      m2.shards = [⟨[(.float64 (.zero true), .str "b")]⟩,
        ⟨[(.float64 (.zero false), .str "a")]⟩] ∧
      goEq (.float64 (.zero true)) (.float64 (.zero false)) = true ∧ m2.Count = 2) ∧
    (∃ m m1 : Map, New 1 = .ok m ∧ m.Set (.float64 (.zero false)) (.str "a") = .ok m1 ∧
      m1.Count = 1 ∧ m1.Has (.float64 (.zero false)) = .ok true ∧
      m1.Has (.float64 (.zero true)) = .ok true) := by
  refine ⟨⟨⟨[⟨[]⟩, ⟨[]⟩, ⟨[]⟩, ⟨[]⟩]⟩,
      ⟨[⟨[]⟩, ⟨[(.float64 .nan, .int 1)]⟩, ⟨[]⟩, ⟨[]⟩]⟩, rfl, rfl, rfl, rfl, fun k h => ?_⟩,
    ⟨_, _, _, rfl, rfl, rfl, rfl, rfl, rfl⟩, ⟨_, _, rfl, rfl, rfl, rfl, rfl⟩⟩
  obtain ⟨i, s, hg, hk⟩ := Has_ok h
  rw [Has_eq hg hk] at h
  have hs := List.getElem?_mem (getShard_ok hg).2
  simp only [List.mem_cons, List.mem_singleton, List.not_mem_nil, or_false] at hs
  rcases hs with rfl | rfl | rfl | rfl <;> simp [goEq_nan] at h

/-- C19, amended. For every shard count n >= 1, in every state reachable from New(n) by any
sequence of Set, Remove and Update calls: the number of shards is still n; every key stored
in the shard at index i satisfies getShardNumber(key, n) = i; consequently one and the same
key value is never stored in two shards at once. If every stored key is `==` to itself (none
is NaN), IsEmpty() is true if and only if Has(k) is true for no key k. If `==` is identity
on every stored key (none is NaN or a float64 zero), Count() equals the number of distinct
keys k with Has(k) true. -/
theorem C19_routing_invariant (n : Int) (_hn : 1 ≤ n) (m : Map) (hm : Reachable n m) :
    (m.shards.length : Int) = n ∧
    (∀ (i : Nat) (s : shard), m.shards[i]? = some s →
      ∀ e ∈ s.items, getShardNumber e.1 n = .ok (i : Int)) ∧
    (∀ (i j : Nat) (s t : shard) (k : KT) (v w : VT), m.shards[i]? = some s →
      m.shards[j]? = some t → (k, v) ∈ s.items → (k, w) ∈ t.items → i = j) ∧
    ((∀ s ∈ m.shards, ∀ e ∈ s.items, goEq e.1 e.1 = true) →
      (m.IsEmpty = true ↔ ∀ k, m.Has k ≠ .ok true)) ∧
    ((∀ s ∈ m.shards, ∀ e ∈ s.items, ∀ k1, goEq k1 e.1 = true ↔ k1 = e.1) →
      ∃ keys : List KT, keys.Nodup ∧ keys.length = m.Count ∧
        ∀ k, m.Has k = .ok true ↔ k ∈ keys) := by
  have hinv := hm.inv
  have hro : ∀ (i : Nat) (l : List (KT × VT)), ((fun _ l => l) i l : List (KT × VT)).Perm l :=
    fun _ _ => List.Perm.refl _
  have hstored : ∀ t ∈ m.Iter (fun _ l => l), ∃ s ∈ m.shards, (t.Key, t.Val) ∈ s.items := by
    intro t ht
    obtain ⟨j, s, hj, hmem⟩ := (mem_iterFrom hro m.shards 0 t).1 ht
    exact ⟨s, List.getElem?_mem hj, hmem⟩
  refine ⟨hinv.1, fun i s hs => (hinv.2 i s hs).routed, ?_, fun hself => ?_, fun hid => ?_⟩
  · intro i j s t k v w hs ht hkv hkw
    have h1 := (hinv.2 i s hs).routed _ hkv
    have h2 := (hinv.2 j t ht).routed _ hkw
    simp only at h1 h2
    rw [h1] at h2
    simpa using h2
  · constructor
    · intro hempty k hhas
      obtain ⟨i, s, hg, hk⟩ := Has_ok hhas
      rw [Has_eq hg hk] at hhas
      have hcount : m.Count = 0 := by simpa [Map.IsEmpty] using hempty
      rw [Count_eq_sum] at hcount
      have hzero := (List.sum_eq_zero_iff.1 hcount) s.items.length
        (List.mem_map_of_mem _ (List.getElem?_mem (getShard_ok hg).2))
      rw [List.length_eq_zero] at hzero
      simp [hzero] at hhas
    · intro hnone
      by_contra hne
      have hpos : m.Count ≠ 0 := by simpa [Map.IsEmpty] using hne
      have hlen : (m.Iter fun _ l => l).length = m.Count := by
        rw [Map.Iter, length_iterFrom hro, Count_eq_sum]
      cases hl : m.Iter (fun _ l => l) with
      | nil =>
        rw [hl] at hlen
        exact hpos hlen.symm
      | cons t rest =>
        have ht : t ∈ m.Iter (fun _ l => l) := by rw [hl]; exact List.mem_cons_self _ _
        obtain ⟨s, hs, hmem⟩ := hstored t ht
        have := Get_of_mem_Iter hm hro (hself s hs _ hmem) (v := t.Val) ht
        exact hnone t.Key (Has_of_Get this)
  · refine ⟨(m.Iter fun _ l => l).map Tuple.Key, ?_, ?_, fun k => ⟨fun hhas => ?_, fun hk => ?_⟩⟩
    · refine List.Pairwise.map _ ?_ (List.Pairwise.and_mem.1
        (pairwise_iterFrom hro m.shards 0 fun j s hj => by simpa using hinv.2 j s hj))
      intro a b ⟨ha, _, hab⟩ heq
      obtain ⟨s, hs, hmem⟩ := hstored a ha
      have := (hid s hs _ hmem a.Key).2 rfl
      simp only at this
      rw [hab heq] at this
      exact Bool.false_ne_true this
    · rw [List.length_map, Map.Iter, length_iterFrom hro, Count_eq_sum]
    · obtain ⟨v, hget⟩ := Get_of_Has hhas
      obtain ⟨k0, ht, hmem⟩ := mem_Iter_of_Get hm hro hget
      obtain ⟨s, hs, hmem2⟩ := hstored _ hmem
      have hk : k = k0 := (hid s hs _ hmem2 k).1 ((goEq_symm k k0).trans ht.1)
      rw [hk]
      exact List.mem_map_of_mem Tuple.Key hmem
    · obtain ⟨t, ht, rfl⟩ := List.mem_map.1 hk
      obtain ⟨s, hs, hmem⟩ := hstored t ht
      exact Has_of_Get (Get_of_mem_Iter hm hro ((hid s hs _ hmem t.Key).2 rfl) (v := t.Val) ht)

/-- Every key stored in the map of TestIter is a string, on which `==` is identity. -/
theorem iterTestMap_keys :
    ∀ s ∈ iterTestMap.shards, ∀ e ∈ s.items, ∀ k1, goEq k1 e.1 = true ↔ k1 = e.1 := by
  intro s hs e he k1
  simp only [iterTestMap, List.mem_cons, List.mem_singleton, List.not_mem_nil, or_false] at hs
  rcases hs with rfl | rfl | rfl | rfl <;>
    simp only [List.mem_singleton] at he <;> subst he <;> exact goEq_str_iff _ k1

/-- C19, witness: the map of TestIter. It has 4 shards, "name1" sits in the shard at index 1,
its own shard number, and the keys with Has true are four distinct keys, Count() being 4. -/
theorem C19_witness :
    Reachable 4 iterTestMap ∧ (iterTestMap.shards.length : Int) = 4 ∧
      getShardNumber (.str "name1") 4 = .ok 1 ∧ iterTestMap.Count = 4 ∧
      ∃ keys : List KT, keys.Nodup ∧ keys.length = iterTestMap.Count ∧
        ∀ k, iterTestMap.Has k = .ok true ↔ k ∈ keys := by
  obtain ⟨h1, h2, _, _, h5⟩ := C19_routing_invariant 4 (by decide) _ iterTestMap_reachable
  have h := h2 1 ⟨[(.str "name1", .str "simon1")]⟩ rfl (.str "name1", .str "simon1")
    (List.mem_singleton.2 rfl)
  simp only [Nat.cast_one] at h
  exact ⟨iterTestMap_reachable, h1, h, rfl, h5 iterTestMap_keys⟩

end Sharded
